import Mathlib

/-!
# bwmon: the measurement, aggregation and delivery pipeline

A shallow embedding of `main.go` of bwmon: the `Config` and `Point` records, `NewPoint`,
`Point.Line`, `write`, `measure` and the scheduler loop of `main`, together with the
library functions they call (`strings.Join`, `strconv.Quote`, gonum's `floats.Min`,
`floats.Max`, `floats.Sum`, `stat.Mean`, `stat.MeanVariance`, `stat.MeanStdDev`).

Conventions.
* A Go `map[string]string` is a reference to a mutable object.  The objects live in a
  `Heap`; a map value is a `MapRef` into it, so that aliasing between the maps of a
  `Config` and the maps of a `Point` can be expressed.
* Go leaves the order in which `range` visits a map unspecified.  Every function that
  ranges over a map takes a `RangeOrder`, the order chosen by the runtime, as an
  argument; the theorems hold for every order that is a permutation of the entries.
* `time.Time` is only ever observed through `UnixNano()`, so a `Point` carries that
  signed nanosecond count.
* Strings are Lean strings (sequences of Unicode scalar values).
* The outside world is explicit: the network is a function from a request to its result,
  one run of the fast.com client is the record `Cycle`, and what the program does to the
  world is a list of `Event`s (HTTP posts, log lines, sleeps).
* The goroutine of `measure` runs once the client has closed the channel.  `measure`
  waits for it only when `f.Measure` returns nil; otherwise what the goroutine does
  after the return is recorded apart.  A panic in it ends the process.
* The library functions are embedded from the published sources of the Go standard
  library (`strings`, `strconv`, `fmt`) and of gonum (`floats`, `stat`), each once for
  the arguments that bwmon passes (no weights, the double quote, the verb `%#v`).
* `float64` is read in two arithmetics, IEEE 754 binary64 (`F64`) and exact rational
  arithmetic (`Exact`); see the section on `float64`.
* The order in which `floats.Sum` adds depends on the platform (a loop from left to
  right, or the lanes of the amd64 assembly).  The functions that sum take the order, a
  `SumOrder`, as an argument; the theorems hold for every order that adds each element
  once.
-/

namespace Bwmon

/-! ## Go maps -/

/-- The entries of a `map[string]string`; the keys of a map are pairwise distinct. -/
abbrev GoMap := List (String × String)

/-- The keys of a map. -/
def GoMap.keys (m : GoMap) : List String := m.map Prod.fst

/-- The statement `m[k] = v`: the value of an existing key is replaced, a new key is
added. -/
def GoMap.set : GoMap → String → String → GoMap
  | [], k, v => [(k, v)]
  | (k', v') :: m, k, v => if k' = k then (k', v) :: m else (k', v') :: GoMap.set m k v

/-- The expression `m[k]` with its presence flag. -/
def GoMap.get (m : GoMap) (k : String) : Option String := List.lookup k m

/-- A reference to a map object. -/
abbrev MapRef := Nat

/-- The map objects allocated so far. -/
abbrev Heap := List GoMap

/-- The entries of the map behind a reference. -/
def Heap.load (h : Heap) (r : MapRef) : GoMap := h.getD r []

/-- The call `make(map[string]string)`: a new, empty map object. -/
def Heap.make (h : Heap) : MapRef × Heap := (h.length, h ++ [[]])

/-- The statement `m[k] = v` on the map object behind `r`. -/
def Heap.store (h : Heap) (r : MapRef) (k v : String) : Heap :=
  h.modify (fun m => GoMap.set m k v) r

/-- The order in which one `range` statement visits the entries of a map. -/
abbrev RangeOrder := GoMap → List (String × String)

/-- A legal iteration order visits every entry exactly once. -/
def RangeOrder.Legal (ord : RangeOrder) : Prop := ∀ m : GoMap, (ord m).Perm m

/-- Every map object of the heap has pairwise distinct keys. -/
def Heap.WF (h : Heap) : Prop := ∀ m ∈ h, (GoMap.keys m).Nodup

/-! ## Config and Point -/

/-- The record `Config`. -/
structure Config where
  Debug : Bool
  Interval : Int
  Measurement : String
  Tags : MapRef
  Fields : MapRef
  DBURL : String
deriving DecidableEq, Repr

/-- The record `Point`; `Time` is the value of `Time.UnixNano()`. -/
structure Point where
  Measurement : String
  Time : Int
  Fields : MapRef
  Tags : MapRef
deriving DecidableEq, Repr

/-- The function `NewPoint`; `now` is the reading of `time.Now()`. -/
def NewPoint (ord : RangeOrder) (now : Int) (h : Heap) (c : Config) : Point × Heap :=
  let (tags, h1) := Heap.make h
  let h2 := (ord (Heap.load h1 c.Tags)).foldl (fun hh kv => Heap.store hh tags kv.1 kv.2) h1
  let (fields, h3) := Heap.make h2
  let h4 := (ord (Heap.load h3 c.Fields)).foldl
    (fun hh kv => Heap.store hh fields kv.1 kv.2) h3
  ({ Measurement := c.Measurement, Time := now, Fields := fields, Tags := tags }, h4)

/-! ## The line encoder -/

/-- The library function `strings.Join`: nothing for no element, the element itself for
one, and otherwise the first element followed, for each further element `s`, by
`b.WriteString(sep); b.WriteString(s)`. -/
def Join : List String → String → String
  | [], _ => ""
  | [a], _ => a
  | a :: rest, sep => rest.foldl (fun b s => b ++ sep ++ s) a

/-- The verb `%d` applied to an `int64`: the decimal digits, after a minus sign for a
negative number. -/
def formatInt (i : Int) : String := toString i

/-- The method `Point.Line`: the tags are written to a `strings.Builder`, the fields are
collected in a slice and joined, and `fmt.Sprintf("%s%s %s %d", ...)` puts the line
together. -/
def Point.Line (ord : RangeOrder) (h : Heap) (p : Point) : String :=
  let tags := (ord (Heap.load h p.Tags)).foldl
    (fun b kv => ((b.push ',' ++ kv.1).push '=') ++ kv.2) ""
  let fields := (ord (Heap.load h p.Fields)).foldl
    (fun fs kv => fs ++ [kv.1 ++ "=" ++ kv.2]) []
  p.Measurement ++ tags ++ " " ++ Join fields "," ++ " " ++ formatInt p.Time

/-! ### The format as the specification words it -/

/-- The tag block: for each tag the text `,key=value`. -/
def tagBlock : List (String × String) → String
  | [] => ""
  | (k, v) :: ts => "," ++ k ++ "=" ++ v ++ tagBlock ts

/-- The field block: the fields written `key=value`, a comma between neighbours. -/
def fieldBlock : List (String × String) → String
  | [] => ""
  | [(k, v)] => k ++ "=" ++ v
  | (k, v) :: fs => k ++ "=" ++ v ++ "," ++ fieldBlock fs

/-- The line of the format `M[,k=v...] k=v[,k=v...] T`. -/
def lineFormat (M : String) (tags fields : List (String × String)) (T : Int) : String :=
  M ++ tagBlock tags ++ " " ++ fieldBlock fields ++ " " ++ toString T


/-! ## Decoding a line

The repository has no decoder; this one follows the words of the specification: split
on the space between the blocks, on the comma between the entries, and on the equals
sign between key and value. -/

/-- The pieces of a text between the occurrences of the delimiter `c`. -/
def splitOn (c : Char) : List Char → List (List Char)
  | [] => [[]]
  | x :: xs =>
    if x = c then [] :: splitOn c xs
    else
      match splitOn c xs with
      | [] => [[x]]
      | piece :: pieces => (x :: piece) :: pieces

/-- One entry `key=value`. -/
def parseEntry (cs : List Char) : Option (String × String) :=
  match splitOn '=' cs with
  | [k, v] => some (String.mk k, String.mk v)
  | _ => none

/-- A list of entries; every one has to parse. -/
def parseEntries : List (List Char) → Option (List (String × String))
  | [] => some []
  | cs :: rest =>
    match parseEntry cs, parseEntries rest with
    | some kv, some kvs => some (kv :: kvs)
    | _, _ => none

/-- An unsigned decimal number. -/
def parseDecimal (cs : List Char) : Option Nat :=
  if cs = [] then none
  else cs.foldl
    (fun acc ch => acc.bind fun n => if ch.isDigit then some (10 * n + (ch.toNat - 48)) else none)
    (some 0)

/-- A decimal number with an optional minus sign. -/
def parseInt : List Char → Option Int
  | '-' :: rest => (parseDecimal rest).map fun n => -(n : Int)
  | cs => (parseDecimal cs).map fun n => (n : Int)

/-- What a line decodes to. -/
structure Decoded where
  Measurement : String
  Tags : List (String × String)
  Fields : List (String × String)
  Time : Int
deriving DecidableEq, Repr

/-- The decoder of the line format. -/
def decode (line : String) : Option Decoded :=
  match splitOn ' ' line.data with
  | [head, fieldPart, stamp] =>
    match splitOn ',' head with
    | [] => none
    | m :: tagEntries =>
      match parseEntries tagEntries,
        (if fieldPart = [] then some [] else parseEntries (splitOn ',' fieldPart)),
        parseInt stamp with
      | some tags, some fields, some t => some ⟨String.mk m, tags, fields, t⟩
      | _, _, _ => none
  | _ => none

/-- A text without the reserved characters of the line format: space, comma and equals
sign. -/
def Clean (s : String) : Prop := ' ' ∉ s.data ∧ ',' ∉ s.data ∧ '=' ∉ s.data

instance (s : String) : Decidable (Clean s) := by
  unfold Clean; infer_instance

/-- Every key and every value of the entries is clean. -/
def CleanEntries (l : List (String × String)) : Prop := ∀ kv ∈ l, Clean kv.1 ∧ Clean kv.2

instance (l : List (String × String)) : Decidable (CleanEntries l) := by
  unfold CleanEntries; infer_instance

/-- Every value of the entries is clean. -/
def CleanValues (l : List (String × String)) : Prop := ∀ kv ∈ l, Clean kv.2

instance (l : List (String × String)) : Decidable (CleanValues l) := by
  unfold CleanValues; infer_instance

/-! ## The delivery client -/

/-- The part of an `http.Response` that `write` reads; `Body` is the outcome of
`ioutil.ReadAll(res.Body)`. -/
structure Response where
  StatusCode : Int
  Status : String
  Body : Except String String

/-- The network as `http.Post` sees it: URL, content type and request body give a
transport error or a response. -/
abbrev Network := String → String → String → Except String Response

/-- What a run does to the outside world, in order. -/
inductive Event where
  | post (url contentType body : String)
  | logf (format : String) (args : List String)
  | sleep (nanoseconds : Int)
deriving DecidableEq, Repr

/-- The library function `strconv.IsPrint`; its answer on the runes above `0xFF`, a
table lookup in the library, is the parameter `wide`. -/
def IsPrint (wide : Nat → Bool) (r : Char) : Bool :=
  if r.toNat ≤ 0xFF then
    if 0x20 ≤ r.toNat ∧ r.toNat ≤ 0x7E then true
    else if 0xA1 ≤ r.toNat then r.toNat != 0xAD
    else false
  else wide r.toNat

/-- One digit of the library constant `lowerhex`. -/
def lowerhex (n : Nat) : Char := Nat.digitChar (n % 16)

/-- The library function `strconv.appendEscapedRune` for the double quote, neither
ASCII-only nor graphic-only. -/
def appendEscapedRune (wide : Nat → Bool) (buf : String) (r : Char) : String :=
  if r = '"' ∨ r = '\\' then (buf.push '\\').push r
  else if IsPrint wide r then buf.push r
  else if r = '\x07' then buf ++ "\\a"
  else if r = '\x08' then buf ++ "\\b"
  else if r = '\x0c' then buf ++ "\\f"
  else if r = '\n' then buf ++ "\\n"
  else if r = '\r' then buf ++ "\\r"
  else if r = '\t' then buf ++ "\\t"
  else if r = '\x0b' then buf ++ "\\v"
  else if r.toNat < 0x20 ∨ r.toNat = 0x7F then
    ((buf ++ "\\x").push (lowerhex (r.toNat / 16))).push (lowerhex r.toNat)
  else if r.toNat < 0x10000 then
    [12, 8, 4, 0].foldl (fun b s => b.push (lowerhex (r.toNat / 2 ^ s))) (buf ++ "\\u")
  else
    [28, 24, 20, 16, 12, 8, 4, 0].foldl (fun b s => b.push (lowerhex (r.toNat / 2 ^ s)))
      (buf ++ "\\U")

/-- The library function `strconv.Quote`, which the verb `%#v` applies to a string. -/
def Quote (wide : Nat → Bool) (s : String) : String :=
  (s.data.foldl (appendEscapedRune wide) "\"").push '"'

/-- The function `write`: the returned error (`none` for `nil`) and the events.  The
error of a response outside the 2xx range is
`fmt.Errorf("Influxdb returned %s: %#v", res.Status, string(body))`. -/
def write (wide : Nat → Bool) (net : Network) (ord : RangeOrder) (h : Heap) (c : Config)
    (p : Point) : Option String × List Event :=
  let line := Point.Line ord h p
  match net c.DBURL "application/octet-stream" line with
  | .error err => (some err, [Event.post c.DBURL "application/octet-stream" line])
  | .ok res =>
    if res.StatusCode < 200 ∨ res.StatusCode ≥ 300 then
      let body := match res.Body with
        | .ok b => b
        | .error _ => "Unable to read body."
      (some ("Influxdb returned " ++ res.Status ++ ": " ++ Quote wide body),
        [Event.post c.DBURL "application/octet-stream" line])
    else
      (none, Event.post c.DBURL "application/octet-stream" line ::
        (if c.Debug then [Event.logf "%s: %s" [res.Status, line]] else []))

/-- The text `t` occurs in the text `s`. -/
def Contains (s t : String) : Prop := t.data <:+: s.data

instance (s t : String) : Decidable (Contains s t) := by
  unfold Contains; infer_instance

/-- The body that the error message of `write` reports. -/
def reportedBody (res : Response) : String :=
  match res.Body with
  | .ok b => b
  | .error _ => "Unable to read body."

/-- A rune that `strconv.Quote` copies unchanged. -/
def Plain (wide : Nat → Bool) (r : Char) : Prop :=
  r ≠ '"' ∧ r ≠ '\\' ∧ IsPrint wide r = true

instance (wide : Nat → Bool) (r : Char) : Decidable (Plain wide r) := by
  unfold Plain; infer_instance

/-! ## float64

The statistics are written once, over the operations of `float64` that they use, and are
read in two arithmetics: `F64`, the IEEE 754 binary64 arithmetic with rounding to
nearest, ties to even, and `Exact`, the rational numbers with a `NaN`, in which no
operation rounds.  `math.Sqrt` and `strconv.FormatFloat` are function parameters. -/

/-- The operations of `float64` used by the statistics: `+`, `-`, `*`, `/`, `<`,
`math.IsNaN`, `math.NaN()` and the conversion `float64(n)` of an integer. -/
class Float64 (F : Type) where
  add : F → F → F
  sub : F → F → F
  mul : F → F → F
  div : F → F → F
  lt : F → F → Bool
  isNaN : F → Bool
  nan : F
  ofInt : Int → F

/-- A binary64 value: a NaN, an infinity, or the finite number `(-1)^neg * m * 2^e`.
The finite values in canonical form have `2^52 ≤ m < 2^53` and `-1074 ≤ e ≤ 971`
(normal), or `m < 2^52` and `e = -1074` (subnormal and zero).  Every operation below
computes the exact result and rounds it once. -/
inductive F64 where
  | nan
  | inf (neg : Bool)
  | fin (neg : Bool) (m : Nat) (e : Int)
deriving DecidableEq, Repr

/-- The number of binary digits of `n`; the first argument bounds the recursion. -/
def bitLen : Nat → Nat → Nat
  | 0, _ => 0
  | fuel + 1, n => if n = 0 then 0 else bitLen fuel (n / 2) + 1

/-- The binary64 value nearest to `(-1)^neg * M * 2^E`, ties to even, overflow to an
infinity. -/
def F64.round (neg : Bool) (M : Nat) (E : Int) : F64 :=
  if M = 0 then .fin neg 0 (-1074)
  else
    let L : Int := (bitLen M M : Nat)
    let e : Int := max (E + L - 53) (-1074)
    let m : Nat :=
      if e ≤ E then M <<< (E - e).toNat
      else
        let k := (e - E).toNat
        let q := M >>> k
        let r := M - (q <<< k)
        if 2 * r > 1 <<< k ∨ (2 * r = 1 <<< k ∧ q % 2 = 1) then q + 1 else q
    if m = 2 ^ 53 then (if e + 1 > 971 then .inf neg else .fin neg (2 ^ 52) (e + 1))
    else if e > 971 then .inf neg
    else .fin neg m e

/-- The integer `(-1)^neg * n`. -/
def signed (neg : Bool) (n : Nat) : Int := if neg then -(n : Int) else (n : Int)

/-- Negation. -/
def F64.neg : F64 → F64
  | .nan => .nan
  | .inf s => .inf (!s)
  | .fin s m e => .fin (!s) m e

/-- Addition. -/
def F64.add : F64 → F64 → F64
  | .nan, _ => .nan
  | _, .nan => .nan
  | .inf s, .inf t => if s = t then .inf s else .nan
  | .inf s, .fin _ _ _ => .inf s
  | .fin _ _ _, .inf t => .inf t
  | .fin s1 m1 e1, .fin s2 m2 e2 =>
    let e := min e1 e2
    let sum := signed s1 (m1 <<< (e1 - e).toNat) + signed s2 (m2 <<< (e2 - e).toNat)
    if sum = 0 then .fin (s1 && s2) 0 (-1074)
    else F64.round (decide (sum < 0)) sum.natAbs e

/-- Subtraction. -/
def F64.sub (a b : F64) : F64 := F64.add a (F64.neg b)

/-- Multiplication. -/
def F64.mul : F64 → F64 → F64
  | .nan, _ => .nan
  | _, .nan => .nan
  | .inf s, .inf t => .inf (xor s t)
  | .inf s, .fin t m _ => if m = 0 then .nan else .inf (xor s t)
  | .fin s m _, .inf t => if m = 0 then .nan else .inf (xor s t)
  | .fin s1 m1 e1, .fin s2 m2 e2 => F64.round (xor s1 s2) (m1 * m2) (e1 + e2)

/-- Division.  The quotient of the significands is computed with more than 64 digits,
and its last digit records whether a remainder is left, so that the one rounding sees on
which side of every rounding boundary the exact quotient lies. -/
def F64.div : F64 → F64 → F64
  | .nan, _ => .nan
  | _, .nan => .nan
  | .inf _, .inf _ => .nan
  | .inf s, .fin t _ _ => .inf (xor s t)
  | .fin s _ _, .inf t => .fin (xor s t) 0 (-1074)
  | .fin s1 m1 e1, .fin s2 m2 e2 =>
    if m2 = 0 then (if m1 = 0 then .nan else .inf (xor s1 s2))
    else
      let k := bitLen m2 m2 + 64
      let q := (m1 <<< k) / m2
      let sticky := if (m1 <<< k) % m2 = 0 then 0 else 1
      F64.round (xor s1 s2) (2 * q + sticky) (e1 - e2 - (k : Nat) - 1)

/-- The integer square root, found bit by bit from bit `k - 1` down. -/
def isqrtBits : Nat → Nat → Nat → Nat
  | 0, _, r => r
  | k + 1, n, r =>
    if (r + 2 ^ k) * (r + 2 ^ k) ≤ n then isqrtBits k n (r + 2 ^ k) else isqrtBits k n r

/-- The integer square root. -/
def isqrt (n : Nat) : Nat := isqrtBits (bitLen n n) n 0

/-- The library function `math.Sqrt`, correctly rounded: the integer square root of the
significand scaled by `2^128` (or `2^129`, to make the exponent even), with a last digit
that records whether the root is inexact, is rounded once. -/
def F64.sqrt : F64 → F64
  | .nan => .nan
  | .inf s => if s then .nan else .inf false
  | .fin s m e =>
    if m = 0 then .fin s 0 (-1074)
    else if s then .nan
    else
      let M := if e % 2 = 0 then m else 2 * m
      let E := if e % 2 = 0 then e else e - 1
      let N := M <<< 128
      let t := isqrt N
      let sticky := if t * t = N then 0 else 1
      F64.round false (2 * t + sticky) (E / 2 - 65)

/-- The position of a value that is not a NaN in the order of `float64`: the number
times `2^1074`, and beyond all of these the infinities. -/
def F64.rank : F64 → Int
  | .nan => 0
  | .inf s => signed s (1 <<< 2100)
  | .fin s m e => signed s (m <<< (e + 1074).toNat)

/-- The predicate `math.IsNaN`. -/
def F64.isNaN : F64 → Bool
  | .nan => true
  | _ => false

/-- The comparison `a < b`. -/
def F64.lt (a b : F64) : Bool := !a.isNaN && !b.isNaN && decide (a.rank < b.rank)

/-- The comparison `a <= b`. -/
def F64.le (a b : F64) : Bool := !a.isNaN && !b.isNaN && decide (a.rank ≤ b.rank)

/-- The conversion `float64(n)`. -/
def F64.ofInt (i : Int) : F64 := F64.round (decide (i < 0)) i.natAbs 0

instance f64Float64 : Float64 F64 where
  add := F64.add
  sub := F64.sub
  mul := F64.mul
  div := F64.div
  lt := F64.lt
  isNaN := F64.isNaN
  nan := F64.nan
  ofInt := F64.ofInt

/-- The exact arithmetic: a rational number, or `none` for a NaN.  A non-zero number
divided by zero, an infinity in `float64`, is mapped to `none` as well; the statistics of
finite samples never form one. -/
abbrev Exact := Option ℚ

instance exactFloat64 : Float64 Exact where
  add a b := a.bind fun x => b.bind fun y => some (x + y)
  sub a b := a.bind fun x => b.bind fun y => some (x - y)
  mul a b := a.bind fun x => b.bind fun y => some (x * y)
  div a b := a.bind fun x => b.bind fun y => if y = 0 then none else some (x / y)
  lt a b := match a, b with
    | some x, some y => decide (x < y)
    | _, _ => false
  isNaN a := a.isNone
  nan := none
  ofInt i := some (i : ℚ)

/-! ## gonum: `floats` and `stat` -/

/-- The way a sum of the elements of a slice is formed: which additions are made, in
which order.  `zero` is the initial value of an accumulator, `elem i` is `x[i]`. -/
inductive SumTree where
  | zero
  | elem (i : Nat)
  | add (l r : SumTree)
deriving DecidableEq, Repr

/-- The value of a sum formed in the given way. -/
def SumTree.eval {F : Type} [Float64 F] (x : List F) : SumTree → F
  | .zero => Float64.ofInt 0
  | .elem i => x.getD i (Float64.ofInt 0)
  | .add l r => Float64.add (SumTree.eval x l) (SumTree.eval x r)

/-- The indices of the elements that a sum adds, from left to right. -/
def SumTree.elems : SumTree → List Nat
  | .zero => []
  | .elem i => [i]
  | .add l r => SumTree.elems l ++ SumTree.elems r

/-- The way `floats.Sum` adds a slice of each length.  The library leaves it to the
platform: the portable code is the loop `for _, v := range x { sum += v }`, and the
assembly that replaces it on amd64 keeps several accumulators, each adding every second
(or fourth, eighth) element, and adds the accumulators at the end; where its lanes start
depends on the alignment of the slice. -/
abbrev SumOrder := Nat → SumTree

/-- A legal way to sum adds every element of the slice exactly once. -/
def SumOrder.Legal (so : SumOrder) : Prop := ∀ n, (SumTree.elems (so n)).Perm (List.range n)

/-- The order of the portable loop: `((0 + x[0]) + x[1]) + ...`. -/
def sequential : SumOrder
  | 0 => .zero
  | n + 1 => .add (sequential n) (.elem n)

/-- One accumulator of a sum in lanes: zero, then the elements with the given indices. -/
def laneOf (indices : List Nat) : SumTree :=
  indices.foldl (fun t i => .add t (.elem i)) .zero

/-- A sum in two lanes: one accumulator adds the elements with even index, the other
those with odd index, and the two are added: `(x[0] + x[2]) + (x[1] + x[3])` for four
elements. -/
def lanes : SumOrder := fun n =>
  .add (laneOf ((List.range n).filter fun i => i % 2 == 0))
    (laneOf ((List.range n).filter fun i => !(i % 2 == 0)))

/-- The library function `floats.Sum`, adding in the order `so`. -/
def Sum {F : Type} [Float64 F] (so : SumOrder) (s : List F) : F :=
  SumTree.eval s (so s.length)

/-- The library function `stat.Mean` without weights: `floats.Sum(x) / float64(len(x))`. -/
def Mean {F : Type} [Float64 F] (so : SumOrder) (x : List F) : F :=
  Float64.div (Sum so x) (Float64.ofInt x.length)

/-- The library function `stat.MeanVariance` without weights, the corrected two-pass
algorithm: after `mean = Mean(x, weights)` the loop
`for _, v := range x { d := v - mean; ss += d * d; compensation += d }`, and the result
`(ss - compensation*compensation/float64(len(x))) / (float64(len(x)) - 1)`, the unbiased
estimate of the variance. -/
def MeanVariance {F : Type} [Float64 F] (so : SumOrder) (x : List F) : F × F :=
  let mean := Mean so x
  let acc := x.foldl
    (fun (st : F × F) v =>
      let d := Float64.sub v mean
      (Float64.add st.1 (Float64.mul d d), Float64.add st.2 d))
    (Float64.ofInt 0, Float64.ofInt 0)
  let ss := acc.1
  let compensation := acc.2
  let unnormalisedVariance :=
    Float64.sub ss (Float64.div (Float64.mul compensation compensation)
      (Float64.ofInt x.length))
  (mean, Float64.div unnormalisedVariance
    (Float64.sub (Float64.ofInt x.length) (Float64.ofInt 1)))

/-- The library function `stat.MeanStdDev` without weights: the mean and
`math.Sqrt(variance)` of `MeanVariance`. -/
def MeanStdDev {F : Type} [Float64 F] (so : SumOrder) (Sqrt : F → F) (x : List F) :
    F × F :=
  let mv := MeanVariance so x
  (mv.1, Sqrt mv.2)

/-- The library function `floats.MaxIdx`.  On an empty slice it panics with
`floats: zero slice length`, which is `none` here; otherwise, from `max := math.NaN()`
and index 0, the loop skips every NaN `v` and takes `v` and its index whenever
`v > max || math.IsNaN(max)`. -/
def MaxIdx {F : Type} [Float64 F] (s : List F) : Option Nat :=
  if s.length = 0 then none
  else some (s.enum.foldl
    (fun (st : F × Nat) (iv : Nat × F) =>
      if Float64.isNaN iv.2 then st
      else if Float64.lt st.1 iv.2 || Float64.isNaN st.1 then (iv.2, iv.1)
      else st)
    ((Float64.nan : F), 0)).2

/-- The library function `floats.Max`: `s[MaxIdx(s)]`. -/
def Max {F : Type} [Float64 F] (s : List F) : Option F :=
  match MaxIdx s with
  | none => none
  | some ind => s[ind]?

/-- The library function `floats.MinIdx`: as `MaxIdx`, with `v < min || math.IsNaN(min)`;
`none` is the panic on an empty slice. -/
def MinIdx {F : Type} [Float64 F] (s : List F) : Option Nat :=
  if s.length = 0 then none
  else some (s.enum.foldl
    (fun (st : F × Nat) (iv : Nat × F) =>
      if Float64.isNaN iv.2 then st
      else if Float64.lt iv.2 st.1 || Float64.isNaN st.1 then (iv.2, iv.1)
      else st)
    ((Float64.nan : F), 0)).2

/-- The library function `floats.Min`: `s[MinIdx(s)]`. -/
def Min {F : Type} [Float64 F] (s : List F) : Option F :=
  match MinIdx s with
  | none => none
  | some ind => s[ind]?

/-- One step of the loop of `floats.MaxIdx` and `floats.MinIdx`, over the comparison
`better` that makes the loop take the new value. -/
def scanStep {F : Type} (isNaN : F → Bool) (better : F → F → Bool) (st : F × Nat)
    (iv : Nat × F) : F × Nat :=
  if isNaN iv.2 then st
  else if better st.1 iv.2 || isNaN st.1 then (iv.2, iv.1)
  else st

/-- The population standard deviation as the specification words it: the square root of
the sum of the squared deviations from the mean, divided by the length. -/
def populationStdDev {F : Type} [Float64 F] (so : SumOrder) (Sqrt : F → F) (x : List F) :
    F :=
  let mean := Mean so x
  let ss := Sum so (x.map fun v => Float64.mul (Float64.sub v mean) (Float64.sub v mean))
  Sqrt (Float64.div ss (Float64.ofInt x.length))

/-- The arithmetic mean of rational numbers. -/
def arithmeticMean (qs : List ℚ) : ℚ := qs.sum / qs.length

/-- The sum of the squared deviations from the mean. -/
def squaredDeviations (qs : List ℚ) : ℚ :=
  (qs.map fun x => (x - arithmeticMean qs) ^ 2).sum

/-- The sample variance: the squared deviations divided by the length minus one. -/
def sampleVariance (qs : List ℚ) : ℚ := squaredDeviations qs / (qs.length - 1)

/-- The population variance: the squared deviations divided by the length. -/
def populationVariance (qs : List ℚ) : ℚ := squaredDeviations qs / qs.length

/-! ## measure and the scheduler loop -/

/-- The library functions that are taken as parameters: `math.Sqrt`,
`strconv.FormatFloat(x, 'f', -1, 64)` and the table of `strconv.IsPrint`. -/
structure Lib (F : Type) where
  Sqrt : F → F
  FormatFloat : F → String
  wide : Nat → Bool

/-- What the outside world does during one call of `measure`: the results of `f.Init()`
and `f.GetUrls()`, the samples that `f.Measure` sends on `kbpsChan` before it closes the
channel, the result of `f.Measure`, the reading of `time.Now()`, the network, the order
in which maps are ranged over, the order in which `floats.Sum` adds, and, for the case
that `f.Measure` returns an error, the number `early` of steps (events, then the panic if
there is one) that the goroutine has made when `measure` returns.  The fast.com client is
a dependency; by its interface it closes the channel when the measurement is complete or
has failed. -/
structure Cycle (F : Type) where
  initErr : Option String
  urls : Except String (List String)
  samples : List F
  measureErr : Option String
  now : Int
  net : Network
  ord : RangeOrder
  sum : SumOrder
  early : Nat

/-- How a call ends: it returns (an error or `nil`), or a panic ends the process. -/
inductive Outcome where
  | returned (err : Option String)
  | panicked (msg : String)
deriving DecidableEq, Repr

/-- The result of running a piece of the program: how it ended, what it did to the
outside world until then, what the goroutine that it left running does afterwards
(`late`, and `latePanic` when that goroutine panics), and the heap once the goroutine is
done. -/
structure Run where
  outcome : Outcome
  events : List Event
  late : List Event
  latePanic : Option String
  heap : Heap

/-- The panic that ends the process, during the call or in the goroutine it left. -/
def Run.crash (r : Run) : Option String :=
  match r.outcome with
  | .panicked msg => some msg
  | .returned _ => r.latePanic

/-- The aggregation step of `measure` (the statements from `stat.MeanStdDev` to the
store of `stddev`): the point and the heap, or the message of a panic. -/
def aggregate {F : Type} [Float64 F] (lib : Lib F) (so : SumOrder) (ord : RangeOrder)
    (now : Int) (h : Heap) (config : Config) (points : List F) :
    Except String (Point × Heap) :=
  let ms := MeanStdDev so lib.Sqrt points
  let ph := NewPoint ord now h config
  match Min points with
  | none => .error "floats: zero slice length"
  | some mn =>
    let h1 := Heap.store ph.2 ph.1.Fields "min" (lib.FormatFloat mn)
    match Max points with
    | none => .error "floats: zero slice length"
    | some mx =>
      let h2 := Heap.store h1 ph.1.Fields "max" (lib.FormatFloat mx)
      let h3 := Heap.store h2 ph.1.Fields "mean" (lib.FormatFloat ms.1)
      let h4 := Heap.store h3 ph.1.Fields "stddev" (lib.FormatFloat ms.2)
      .ok (ph.1, h4)

/-- The goroutine of `measure`, run from the first receive to `wg.Done()`. -/
def worker {F : Type} [Float64 F] (lib : Lib F) (cy : Cycle F) (h : Heap)
    (config : Config) : Run :=
  let points := cy.samples.foldl (fun pts kbps => pts ++ [kbps]) []
  match aggregate lib cy.sum cy.ord cy.now h config points with
  | .error msg => ⟨.panicked msg, [], [], none, h⟩
  | .ok (point, h1) =>
    let w := write lib.wide cy.net cy.ord h1 config point
    match w.1 with
    | some err =>
      ⟨.returned none, w.2 ++ [Event.logf "Error writing line: %s" [err]], [], none, h1⟩
    | none => ⟨.returned none, w.2, [], none, h1⟩

/-- The function `measure`.  When `f.Measure` returns nil, `wg.Wait()` lets the goroutine
finish first: its events precede the return, and a panic in it ends the process before
`measure` returns.  When `f.Measure` returns an error, `measure` returns it without
waiting: the goroutine has made `cy.early` of its steps by then and makes the others
afterwards. -/
def measure {F : Type} [Float64 F] (lib : Lib F) (cy : Cycle F) (h : Heap)
    (config : Config) : Run :=
  match cy.initErr with
  | some err => ⟨.returned (some err), [], [], none, h⟩
  | none =>
    match cy.urls with
    | .error err => ⟨.returned (some err), [], [], none, h⟩
    | .ok _ =>
      let w := worker lib cy h config
      match cy.measureErr with
      | none =>
        match w.outcome with
        | .panicked msg => ⟨.panicked msg, w.events, [], none, w.heap⟩
        | .returned _ => ⟨.returned none, w.events, [], none, w.heap⟩
      | some err =>
        match w.outcome with
        | .panicked msg =>
          if cy.early > w.events.length then ⟨.panicked msg, w.events, [], none, w.heap⟩
          else
            ⟨.returned (some err), w.events.take cy.early, w.events.drop cy.early,
              some msg, w.heap⟩
        | .returned _ =>
          ⟨.returned (some err), w.events.take cy.early, w.events.drop cy.early, none,
            w.heap⟩

/-- The value of an `int64` computation: the result reduced modulo `2^64`. -/
def wrapInt64 (x : Int) : Int := (x + 2 ^ 63) % 2 ^ 64 - 2 ^ 63

/-- One pass of the `for` loop of `main`: `measure`, then either the log of its error
or the sleep of `time.Duration(config.Interval) * time.Second`. -/
def iteration {F : Type} [Float64 F] (lib : Lib F) (cy : Cycle F) (h : Heap)
    (config : Config) : Run :=
  let r := measure lib cy h config
  match r.outcome with
  | .panicked msg => ⟨.panicked msg, r.events, r.late, r.latePanic, r.heap⟩
  | .returned (some err) =>
    ⟨.returned (some err), r.events ++ [Event.logf err []], r.late, r.latePanic, r.heap⟩
  | .returned none =>
    ⟨.returned none,
      r.events ++ [Event.sleep (wrapInt64 (config.Interval * 1000000000))], r.late,
      r.latePanic, r.heap⟩

/-- The `for` loop of `main` over the given cycles; it stops at a panic.  The events of
the goroutines that were left running are kept apart in `late`, their place among the
events of the loop not being determined; such a goroutine is taken to be done, or to have
ended the process by its panic, when the next pass begins. -/
def mainLoop {F : Type} [Float64 F] (lib : Lib F) (config : Config) :
    List (Cycle F) → Heap → Run
  | [], h => ⟨.returned none, [], [], none, h⟩
  | cy :: rest, h =>
    let r := iteration lib cy h config
    match r.crash with
    | some msg => ⟨.panicked msg, r.events, r.late, none, r.heap⟩
    | none =>
      let r2 := mainLoop lib config rest r.heap
      ⟨r2.outcome, r.events ++ r2.events, r.late ++ r2.late, r2.latePanic, r2.heap⟩

/-! ## Examples -/


/-- A configuration for the examples: maps 0 (tags) and 1 (fields) of the heap. -/
def exampleConfig : Config :=
  { Debug := false, Interval := 300, Measurement := "bandwidth", Tags := 0, Fields := 1,
    DBURL := "http://127.0.0.1:8086/write?db=bwmon" }

/-- The point of scenario B: maps 0 (tags) and 1 (fields) of `exampleHeap`. -/
def examplePoint : Point :=
  { Measurement := "bandwidth", Time := 1000, Fields := 1, Tags := 0 }

/-- The heap of scenario B. -/
def exampleHeap : Heap := [[("Hostname", "h1"), ("AppName", "bwmon")], [("mean", "20")]]

/-- A network that answers every request with the given status and body. -/
def replyWith (code : Int) (status body : String) : Network :=
  fun _ _ _ => .ok { StatusCode := code, Status := status, Body := .ok body }

/-- The sample stream of scenario A. -/
def scenarioA : List F64 := [F64.ofInt 10, F64.ofInt 20, F64.ofInt 30]

/-- The `float64` nearest to one tenth, the value of the literal `0.1`. -/
def tenth : F64 := F64.div (F64.ofInt 1) (F64.ofInt 10)

/-- A stand-in for `strconv.FormatFloat(x, 'f', -1, 64)` in the examples.  It is the
library's output on a NaN, on the infinities and on integral values below `2^53`, whose
shortest digits are the digits of the integer; any other value, for which the library
searches the shortest digits that round-trip, gets the placeholder `?`. -/
def formatIntegral : F64 → String
  | .nan => "NaN"
  | .inf s => if s then "-Inf" else "+Inf"
  | .fin s m e =>
    if e ≤ 0 ∧ m % 2 ^ (-e).toNat = 0 then
      (if s then "-" else "") ++ toString (m / 2 ^ (-e).toNat)
    else "?"

/-- The library parameters of the examples. -/
def exampleLib : Lib F64 :=
  { Sqrt := F64.sqrt, FormatFloat := formatIntegral, wide := fun _ => false }

/-- The heap that `main` sets up: the tags (map 0) and the empty fields (map 1) of the
configuration. -/
def startHeap : Heap :=
  [[("Hostname", "h1"), ("AppName", "bwmon"), ("Version", "0.0.1")], []]

/-- The fields that the aggregation step left in its point. -/
def storedFields (r : Except String (Point × Heap)) : Option GoMap :=
  match r with
  | .ok (p, h) => some (Heap.load h p.Fields)
  | .error _ => none

/-- A cycle in which the source delivers the given samples and reports no error, at
time 1000, with the given network. -/
def cycleOf (samples : List F64) (net : Network) : Cycle F64 :=
  { initErr := none, urls := .ok ["https://example.net/speedtest"], samples := samples,
    measureErr := none, now := 1000, net := net, ord := id, sum := sequential, early := 0 }

end Bwmon

/-! # Theorems -/

namespace Bwmon

set_option maxRecDepth 100000

/-! ## The line encoder -/

theorem tags_loop (l : List (String × String)) (b : String) :
    l.foldl (fun b kv => ((b.push ',' ++ kv.1).push '=') ++ kv.2) b = b ++ tagBlock l := by
  induction l generalizing b with
  | nil => simp [tagBlock]
  | cons kv l ih =>
    obtain ⟨k, v⟩ := kv
    rw [List.foldl_cons, ih]
    apply String.ext
    simp [tagBlock, String.data_push, String.data_append]

theorem fields_loop (l : List (String × String)) (acc : List String) :
    l.foldl (fun fs kv => fs ++ [kv.1 ++ "=" ++ kv.2]) acc
      = acc ++ l.map (fun kv => kv.1 ++ "=" ++ kv.2) := by
  induction l generalizing acc with
  | nil => simp
  | cons kv l ih => rw [List.foldl_cons, ih]; simp

theorem join_loop (l : List (String × String)) (b : String) :
    (l.map (fun kv => kv.1 ++ "=" ++ kv.2)).foldl (fun b s => b ++ "," ++ s) b
      = b ++ tagBlock l := by
  induction l generalizing b with
  | nil => simp [tagBlock]
  | cons kv l ih =>
    obtain ⟨k, v⟩ := kv
    rw [List.map_cons, List.foldl_cons, ih]
    apply String.ext
    simp [tagBlock, String.data_append]

theorem fieldBlock_cons (k v : String) (fs : List (String × String)) :
    fieldBlock ((k, v) :: fs) = k ++ "=" ++ v ++ tagBlock fs := by
  induction fs generalizing k v with
  | nil => simp [fieldBlock, tagBlock]
  | cons kv fs ih =>
    obtain ⟨k2, v2⟩ := kv
    rw [fieldBlock, ih]
    · apply String.ext
      simp [tagBlock, String.data_append]
    · simp

theorem join_fields (l : List (String × String)) :
    Join (l.map (fun kv => kv.1 ++ "=" ++ kv.2)) "," = fieldBlock l := by
  match l with
  | [] => rfl
  | [(k, v)] => rfl
  | (k, v) :: kv2 :: fs =>
    rw [fieldBlock_cons]
    exact join_loop (kv2 :: fs) (k ++ "=" ++ v)

theorem Line_eq (ord : RangeOrder) (h : Heap) (p : Point) :
    Point.Line ord h p = lineFormat p.Measurement (ord (Heap.load h p.Tags))
      (ord (Heap.load h p.Fields)) p.Time := by
  simp only [Point.Line, lineFormat, tags_loop, fields_loop, List.nil_append, join_fields,
    formatInt]
  apply String.ext
  simp [String.data_append]

/-! ## The delivery client -/

theorem write_ok (wide : Nat → Bool) (net : Network) (ord : RangeOrder) (h : Heap)
    (c : Config) (p : Point) (res : Response)
    (hres : net c.DBURL "application/octet-stream" (Point.Line ord h p) = .ok res) :
    (write wide net ord h c p).1 =
      if res.StatusCode < 200 ∨ res.StatusCode ≥ 300 then
        some ("Influxdb returned " ++ res.Status ++ ": " ++ Quote wide (reportedBody res))
      else none := by
  unfold write
  simp only [hres]
  split <;> rfl

theorem escape_plain (wide : Nat → Bool) (l : List Char) (buf : String)
    (hl : ∀ r ∈ l, Plain wide r) :
    l.foldl (appendEscapedRune wide) buf = buf ++ String.mk l := by
  induction l generalizing buf with
  | nil => apply String.ext; simp [String.data_append]
  | cons r l ih =>
    have hr := hl r (List.mem_cons_self r l)
    have hstep : appendEscapedRune wide buf r = buf.push r := by
      unfold appendEscapedRune
      rw [if_neg (by simp [hr.1, hr.2.1]), if_pos hr.2.2]
    rw [List.foldl_cons, hstep, ih _ (fun x hx => hl x (List.mem_cons_of_mem r hx))]
    apply String.ext
    simp [String.data_append, String.data_push]

theorem Quote_plain (wide : Nat → Bool) (s : String) (hs : ∀ r ∈ s.data, Plain wide r) :
    Quote wide s = "\"" ++ s ++ "\"" := by
  unfold Quote
  rw [escape_plain wide s.data _ hs]
  apply String.ext
  simp [String.data_append, String.data_push]

theorem contains_mid (a b c : String) : Contains (a ++ b ++ c) b := by
  refine ⟨a.data, c.data, ?_⟩
  simp [String.data_append]

theorem contains_end (a b : String) : Contains (a ++ b) b := by
  refine ⟨a.data, [], ?_⟩
  simp [String.data_append]

/-! ## Maps and the heap -/

theorem load_make (h : Heap) (r : MapRef) : Heap.load (Heap.make h).2 r = Heap.load h r := by
  simp only [Heap.load, Heap.make, List.getD_eq_getElem?_getD]
  by_cases hr : r < h.length
  · rw [List.getElem?_append_left hr]
  · have hr2 : h.length ≤ r := Nat.le_of_not_lt hr
    rw [List.getElem?_append_right hr2, List.getElem?_eq_none hr2]
    cases hd : r - h.length <;> simp

theorem length_store (h : Heap) (r : MapRef) (k v : String) :
    (Heap.store h r k v).length = h.length := by
  simp [Heap.store]

theorem load_store_ne (h : Heap) (r r2 : MapRef) (k v : String) (hne : r ≠ r2) :
    Heap.load (Heap.store h r k v) r2 = Heap.load h r2 := by
  simp only [Heap.load, Heap.store, List.getD_eq_getElem?_getD]
  rw [List.getElem?_modify_ne _ _ hne]

theorem load_store_same (h : Heap) (r : MapRef) (k v : String) (hr : r < h.length) :
    Heap.load (Heap.store h r k v) r = GoMap.set (Heap.load h r) k v := by
  simp only [Heap.load, Heap.store, List.getD_eq_getElem?_getD]
  rw [List.getElem?_modify_eq, List.getElem?_eq_getElem hr]
  rfl

theorem set_fresh (m : GoMap) (k v : String) (hk : k ∉ GoMap.keys m) :
    GoMap.set m k v = m ++ [(k, v)] := by
  induction m with
  | nil => rfl
  | cons kv m ih =>
    obtain ⟨k2, v2⟩ := kv
    simp only [GoMap.keys, List.map_cons, List.mem_cons, not_or] at hk
    have hne : ¬ k2 = k := fun e => hk.1 e.symm
    simp only [GoMap.set, if_neg hne, List.cons_append]
    rw [ih hk.2]

theorem copy_loop (l : List (String × String)) (h : Heap) (r : MapRef) (hr : r < h.length)
    (hl : (GoMap.keys (Heap.load h r ++ l)).Nodup) :
    (l.foldl (fun hh kv => Heap.store hh r kv.1 kv.2) h).length = h.length ∧
    Heap.load (l.foldl (fun hh kv => Heap.store hh r kv.1 kv.2) h) r = Heap.load h r ++ l ∧
    ∀ r2, r2 ≠ r →
      Heap.load (l.foldl (fun hh kv => Heap.store hh r kv.1 kv.2) h) r2 = Heap.load h r2 := by
  induction l generalizing h with
  | nil => simp
  | cons kv l ih =>
    obtain ⟨k, v⟩ := kv
    have hfresh : k ∉ GoMap.keys (Heap.load h r) := by
      simp only [GoMap.keys, List.map_append, List.map_cons] at hl
      have := (List.nodup_append.mp hl).2.2
      intro hk
      exact this hk (List.mem_cons_self _ _)
    have hstore : Heap.load (Heap.store h r k v) r = Heap.load h r ++ [(k, v)] := by
      rw [load_store_same h r k v hr, set_fresh _ _ _ hfresh]
    have hl2 : (GoMap.keys (Heap.load (Heap.store h r k v) r ++ l)).Nodup := by
      rw [hstore, List.append_assoc]
      exact hl
    obtain ⟨i1, i2, i3⟩ := ih (Heap.store h r k v) (by rw [length_store]; exact hr) hl2
    rw [List.foldl_cons]
    refine ⟨by rw [i1, length_store], ?_, ?_⟩
    · rw [i2, hstore, List.append_assoc]; rfl
    · intro r2 hne
      rw [i3 r2 hne, load_store_ne h r r2 k v (Ne.symm hne)]

theorem load_mem (h : Heap) (r : MapRef) (hr : r < h.length) : Heap.load h r ∈ h := by
  simp only [Heap.load, List.getD_eq_getElem?_getD, List.getElem?_eq_getElem hr,
    Option.getD_some]
  exact List.getElem_mem hr

theorem load_fresh (h : Heap) : Heap.load (Heap.make h).2 (Heap.make h).1 = [] := by
  simp [Heap.load, Heap.make]

theorem NewPoint_spec (ord : RangeOrder) (hord : ord.Legal) (now : Int) (h : Heap)
    (hwf : h.WF) (c : Config) (hT : c.Tags < h.length) (hF : c.Fields < h.length) :
    (NewPoint ord now h c).1
      = Point.mk c.Measurement now (h.length + 1) h.length ∧
    (NewPoint ord now h c).2.length = h.length + 2 ∧
    Heap.load (NewPoint ord now h c).2 h.length = ord (Heap.load h c.Tags) ∧
    Heap.load (NewPoint ord now h c).2 (h.length + 1) = ord (Heap.load h c.Fields) ∧
    ∀ r, r < h.length → Heap.load (NewPoint ord now h c).2 r = Heap.load h r := by
  have nodup : ∀ r, r < h.length → (GoMap.keys (ord (Heap.load h r))).Nodup := by
    intro r hr
    have hp : (GoMap.keys (ord (Heap.load h r))).Perm (GoMap.keys (Heap.load h r)) :=
      (hord _).map _
    exact hp.nodup_iff.mpr (hwf _ (load_mem h r hr))
  -- the tags loop
  have hlen1 : h.length < (Heap.make h).2.length := by simp [Heap.make]
  have e1 : Heap.load (Heap.make h).2 h.length = [] := load_fresh h
  obtain ⟨a1, a2, a3⟩ := copy_loop (ord (Heap.load h c.Tags)) (Heap.make h).2 h.length hlen1
    (by rw [e1]; exact nodup _ hT)
  rw [e1, List.nil_append] at a2
  -- the fields loop
  generalize hh2 : (ord (Heap.load h c.Tags)).foldl
    (fun hh kv => Heap.store hh h.length kv.1 kv.2) (Heap.make h).2 = h2 at a1 a2 a3
  have len2 : h2.length = h.length + 1 := by rw [a1]; simp [Heap.make]
  have hlen3 : h.length + 1 < (Heap.make h2).2.length := by simp [Heap.make, len2]
  have e3 : Heap.load (Heap.make h2).2 (h.length + 1) = [] := by
    have := load_fresh h2
    rw [show (Heap.make h2).1 = h.length + 1 from len2] at this
    exact this
  have old2 : ∀ r, r < h.length → Heap.load h2 r = Heap.load h r := by
    intro r hr
    rw [a3 r (Nat.ne_of_lt hr), load_make]
  obtain ⟨b1, b2, b3⟩ := copy_loop (ord (Heap.load h c.Fields)) (Heap.make h2).2
    (h.length + 1) hlen3 (by rw [e3]; exact nodup _ hF)
  rw [e3, List.nil_append] at b2
  have unfoldNP : NewPoint ord now h c =
      (Point.mk c.Measurement now (h.length + 1) h.length,
       (ord (Heap.load h c.Fields)).foldl
         (fun hh kv => Heap.store hh (h.length + 1) kv.1 kv.2) (Heap.make h2).2) := by
    simp only [NewPoint]
    have t1 : Heap.load (Heap.make h).2 c.Tags = Heap.load h c.Tags := load_make h _
    have t0 : (Heap.make h).1 = h.length := rfl
    rw [t0, t1, hh2]
    have t2 : (Heap.make h2).1 = h.length + 1 := len2
    have t3 : Heap.load (Heap.make h2).2 c.Fields = Heap.load h c.Fields := by
      rw [load_make, old2 _ hF]
    rw [t2, t3]
  rw [unfoldNP]
  refine ⟨rfl, ?_, ?_, b2, ?_⟩
  · show List.length _ = _
    rw [b1]; simp [Heap.make, len2]
  · show Heap.load _ h.length = _
    rw [b3 _ (Nat.ne_of_lt (Nat.lt_succ_self _)), load_make, a2]
  · intro r hr
    show Heap.load _ r = _
    rw [b3 r (Nat.ne_of_lt (Nat.lt_succ_of_lt hr)), load_make, old2 r hr]

/-! ## The integer helpers of the float64 model -/

theorem lt_two_pow_bitLen (fuel n : Nat) (h : n ≤ fuel) : n < 2 ^ bitLen fuel n := by
  induction fuel generalizing n with
  | zero =>
    have : n = 0 := Nat.le_zero.mp h
    subst this
    simp [bitLen]
  | succ fuel ih =>
    unfold bitLen
    by_cases h0 : n = 0
    · simp [h0]
    · rw [if_neg h0]
      have h2 : n / 2 ≤ fuel := by omega
      have := ih (n / 2) h2
      rw [Nat.pow_succ]
      omega

theorem isqrtBits_spec (k n r : Nat) (h1 : r * r ≤ n) (h2 : n < (r + 2 ^ k) * (r + 2 ^ k)) :
    isqrtBits k n r * isqrtBits k n r ≤ n ∧
      n < (isqrtBits k n r + 1) * (isqrtBits k n r + 1) := by
  induction k generalizing r with
  | zero => simpa [isqrtBits] using And.intro h1 h2
  | succ k ih =>
    unfold isqrtBits
    by_cases hc : (r + 2 ^ k) * (r + 2 ^ k) ≤ n
    · rw [if_pos hc]
      apply ih _ hc
      have e : r + 2 ^ k + 2 ^ k = r + 2 ^ (k + 1) := by rw [Nat.pow_succ]; omega
      rw [e]
      exact h2
    · rw [if_neg hc]
      exact ih _ h1 (Nat.lt_of_not_le hc)

/-- The bit-by-bit root is the integer square root. -/
theorem isqrt_eq_sqrt (n : Nat) : isqrt n = Nat.sqrt n := by
  apply Nat.eq_sqrt.mpr
  unfold isqrt
  apply isqrtBits_spec
  · simp
  · have h := lt_two_pow_bitLen n n (Nat.le_refl n)
    have h1 : 1 ≤ 2 ^ bitLen n n := Nat.one_le_two_pow
    calc n < 2 ^ bitLen n n := h
      _ = 2 ^ bitLen n n * 1 := (Nat.mul_one _).symm
      _ ≤ 2 ^ bitLen n n * 2 ^ bitLen n n := Nat.mul_le_mul_left _ h1
      _ = (0 + 2 ^ bitLen n n) * (0 + 2 ^ bitLen n n) := by simp

/-! ## The extremum loops of `floats` -/

/-- The loop of `floats.MaxIdx` and `floats.MinIdx`, over the comparison it uses. -/
theorem extremum_loop {F : Type} (isNaN : F → Bool) (better : F → F → Bool) (nanv : F)
    (hnan : isNaN nanv = true)
    (hirr : ∀ a, better a a = false)
    (htr : ∀ a b x, better a b = true → better a x = false → better b x = false)
    (suf pre : List F) (st : F × Nat)
    (hsuf : ∀ x ∈ suf, isNaN x = false)
    (hinv : (pre = [] ∧ st = (nanv, 0)) ∨
      (isNaN st.1 = false ∧ (pre ++ suf)[st.2]? = some st.1 ∧
        ∀ x ∈ pre, better st.1 x = false))
    (hne : pre ++ suf ≠ []) :
    isNaN ((suf.enumFrom pre.length).foldl
        (scanStep isNaN better) st).1 = false ∧
    (pre ++ suf)[((suf.enumFrom pre.length).foldl
        (scanStep isNaN better) st).2]? =
      some ((suf.enumFrom pre.length).foldl
        (scanStep isNaN better) st).1 ∧
    ∀ x ∈ pre ++ suf, better ((suf.enumFrom pre.length).foldl
        (scanStep isNaN better) st).1 x = false := by
  induction suf generalizing pre st with
  | nil =>
    rcases hinv with ⟨hp, _⟩ | ⟨h1, h2, h3⟩
    · exact absurd (by simp [hp]) hne
    · simp only [List.enumFrom_nil, List.foldl_nil]
      exact ⟨h1, h2, by simpa using h3⟩
  | cons v suf ih =>
    have hv : isNaN v = false := hsuf v (List.mem_cons_self _ _)
    have hsuf2 : ∀ x ∈ suf, isNaN x = false := fun x hx => hsuf x (List.mem_cons_of_mem _ hx)
    have hlen : (pre ++ [v]).length = pre.length + 1 := by simp
    have happ : pre ++ v :: suf = (pre ++ [v]) ++ suf := by simp
    have hget : ((pre ++ [v]) ++ suf)[pre.length]? = some v := by
      rw [List.append_assoc, List.getElem?_append_right (Nat.le_refl _)]
      simp
    have hstep : ∃ st2, scanStep isNaN better st (pre.length, v) = st2 ∧
        isNaN st2.1 = false ∧ ((pre ++ [v]) ++ suf)[st2.2]? = some st2.1 ∧
        ∀ x ∈ pre ++ [v], better st2.1 x = false := by
      rcases hinv with ⟨hp, hst⟩ | ⟨h1, h2, h3⟩
      · subst hp; subst hst
        refine ⟨(v, 0), by simp [scanStep, hv, hnan], hv, by simp, ?_⟩
        intro x hx
        simp only [List.nil_append, List.mem_singleton] at hx
        rw [hx]; exact hirr v
      · by_cases hb : better st.1 v = true
        · refine ⟨(v, pre.length), by simp [scanStep, hv, hb], hv, hget, ?_⟩
          intro x hx
          rcases List.mem_append.mp hx with hx | hx
          · exact htr _ _ _ hb (h3 x hx)
          · rw [List.mem_singleton.mp hx]; exact hirr v
        · have hb2 : better st.1 v = false := by simpa using hb
          refine ⟨st, by simp [scanStep, hv, hb2, h1], h1, ?_, ?_⟩
          · rw [← happ]; exact h2
          · intro x hx
            rcases List.mem_append.mp hx with hx | hx
            · exact h3 x hx
            · rw [List.mem_singleton.mp hx]; exact hb2
    obtain ⟨st2, e, c1, c2, c3⟩ := hstep
    rw [List.enumFrom_cons, List.foldl_cons, e, happ, ← hlen]
    exact ih (pre ++ [v]) st2 hsuf2 (Or.inr ⟨c1, c2, c3⟩) (by simp)

/-- On a non-empty slice without NaN the loop ends at an index of the slice whose value
no other value beats. -/
theorem extremum_spec {F : Type} (isNaN : F → Bool) (better : F → F → Bool) (nanv : F)
    (hnan : isNaN nanv = true)
    (hirr : ∀ a, better a a = false)
    (htr : ∀ a b x, better a b = true → better a x = false → better b x = false)
    (s : List F) (hs : s ≠ []) (hnn : ∀ x ∈ s, isNaN x = false) :
    ∃ m, s[(s.enum.foldl (scanStep isNaN better) (nanv, 0)).2]? = some m ∧
      m ∈ s ∧ isNaN m = false ∧ ∀ x ∈ s, better m x = false := by
  have h := extremum_loop isNaN better nanv hnan hirr htr s [] (nanv, 0) hnn
    (Or.inl ⟨rfl, rfl⟩) (by simpa using hs)
  simp only [List.nil_append, List.length_nil] at h
  obtain ⟨h1, h2, h3⟩ := h
  exact ⟨_, h2, List.getElem?_mem h2, h1, h3⟩

/-! ## The order of `float64` -/

theorem f64_lt_irrefl (a : F64) : F64.lt a a = false := by
  simp [F64.lt]

theorem f64_lt_trans_max (a b x : F64) (h1 : F64.lt a b = true) (h2 : F64.lt a x = false) :
    F64.lt b x = false := by
  simp only [F64.lt, Bool.and_eq_true, Bool.not_eq_true', decide_eq_true_eq,
    Bool.and_eq_false_iff, Bool.not_eq_false', decide_eq_false_iff_not] at *
  rcases h2 with (h2 | h2) | h2
  · rw [h1.1.1] at h2; cases h2
  · exact Or.inl (Or.inr h2)
  · right; omega

theorem f64_lt_trans_min (a b x : F64) (h1 : F64.lt b a = true) (h2 : F64.lt x a = false) :
    F64.lt x b = false := by
  simp only [F64.lt, Bool.and_eq_true, Bool.not_eq_true', decide_eq_true_eq,
    Bool.and_eq_false_iff, Bool.not_eq_false', decide_eq_false_iff_not] at *
  rcases h2 with (h2 | h2) | h2
  · exact Or.inl (Or.inl h2)
  · rw [h1.1.2] at h2; cases h2
  · right; omega

theorem f64_le_of_not_lt (a b : F64) (ha : a.isNaN = false) (hb : b.isNaN = false)
    (h : F64.lt a b = false) : F64.le b a = true := by
  simp only [F64.lt, F64.le, ha, hb, Bool.not_false, Bool.true_and, decide_eq_false_iff_not,
    decide_eq_true_eq] at *
  omega

theorem f64_le_trans (a b c : F64) (h1 : F64.le a b = true) (h2 : F64.le b c = true) :
    F64.le a c = true := by
  simp only [F64.le, Bool.and_eq_true, Bool.not_eq_true', decide_eq_true_eq] at *
  exact ⟨⟨h1.1.1, h2.1.2⟩, by omega⟩

/-- On a non-empty slice without NaN, `floats.Max` returns an element of the slice that
no element exceeds. -/
theorem f64_Max_spec (s : List F64) (hs : s ≠ []) (hnn : ∀ x ∈ s, x.isNaN = false) :
    ∃ mx, Max s = some mx ∧ mx ∈ s ∧ ∀ x ∈ s, F64.le x mx = true := by
  obtain ⟨m, h1, h2, h3, h4⟩ := extremum_spec F64.isNaN F64.lt F64.nan rfl f64_lt_irrefl
    f64_lt_trans_max s hs hnn
  refine ⟨m, ?_, h2, fun x hx => f64_le_of_not_lt m x h3 (hnn x hx) (h4 x hx)⟩
  have hl : ¬ s.length = 0 := fun e => hs (List.length_eq_zero.mp e)
  simp only [Max, MaxIdx, if_neg hl]
  exact h1

/-- On a non-empty slice without NaN, `floats.Min` returns an element of the slice that
no element is below. -/
theorem f64_Min_spec (s : List F64) (hs : s ≠ []) (hnn : ∀ x ∈ s, x.isNaN = false) :
    ∃ mn, Min s = some mn ∧ mn ∈ s ∧ ∀ x ∈ s, F64.le mn x = true := by
  obtain ⟨m, h1, h2, h3, h4⟩ := extremum_spec F64.isNaN (fun a b => F64.lt b a) F64.nan rfl
    f64_lt_irrefl (fun a b x => f64_lt_trans_min a b x) s hs hnn
  refine ⟨m, ?_, h2, fun x hx => f64_le_of_not_lt x m (hnn x hx) h3 (h4 x hx)⟩
  have hl : ¬ s.length = 0 := fun e => hs (List.length_eq_zero.mp e)
  simp only [Min, MinIdx, if_neg hl]
  exact h1

/-- In the exact arithmetic, `floats.Max` of a non-empty slice is its largest number. -/
theorem exact_Max_spec (qs : List ℚ) (hs : qs ≠ []) :
    ∃ b, Max (qs.map some : List Exact) = some (some b) ∧ b ∈ qs ∧ ∀ x ∈ qs, x ≤ b := by
  obtain ⟨m, h1, h2, h3, h4⟩ := extremum_spec (F := Exact) Float64.isNaN Float64.lt none rfl
    (by intro a; cases a <;> simp [Float64.lt])
    (by
      intro a b x
      cases a <;> cases b <;> cases x <;> simp [Float64.lt]
      intro h1 h2; exact le_of_lt (lt_of_le_of_lt h2 h1))
    (qs.map some) (by simpa using hs) (by simp [Float64.isNaN])
  obtain ⟨b, hb, rfl⟩ := List.mem_map.mp h2
  refine ⟨b, ?_, hb, ?_⟩
  · have hl : ¬ (qs.map some : List Exact).length = 0 := by simpa using hs
    simp only [Max, MaxIdx, if_neg hl]
    exact h1
  · intro x hx
    have := h4 (some x) (List.mem_map.mpr ⟨x, hx, rfl⟩)
    simpa [Float64.lt] using this

/-- In the exact arithmetic, `floats.Min` of a non-empty slice is its smallest number. -/
theorem exact_Min_spec (qs : List ℚ) (hs : qs ≠ []) :
    ∃ a, Min (qs.map some : List Exact) = some (some a) ∧ a ∈ qs ∧ ∀ x ∈ qs, a ≤ x := by
  obtain ⟨m, h1, h2, h3, h4⟩ := extremum_spec (F := Exact) Float64.isNaN
    (fun a b => Float64.lt b a) none rfl
    (by intro a; cases a <;> simp [Float64.lt])
    (by
      intro a b x
      cases a <;> cases b <;> cases x <;> simp [Float64.lt]
      intro h1 h2; exact le_of_lt (lt_of_lt_of_le h1 h2))
    (qs.map some) (by simpa using hs) (by simp [Float64.isNaN])
  obtain ⟨a, ha, rfl⟩ := List.mem_map.mp h2
  refine ⟨a, ?_, ha, ?_⟩
  · have hl : ¬ (qs.map some : List Exact).length = 0 := by simpa using hs
    simp only [Min, MinIdx, if_neg hl]
    exact h1
  · intro x hx
    have := h4 (some x) (List.mem_map.mpr ⟨x, hx, rfl⟩)
    simpa [Float64.lt] using this

/-! ## The statistics in the exact arithmetic -/

theorem exact_add (x y : ℚ) : Float64.add (some x : Exact) (some y) = some (x + y) := rfl

theorem exact_sub (x y : ℚ) : Float64.sub (some x : Exact) (some y) = some (x - y) := rfl

theorem exact_mul (x y : ℚ) : Float64.mul (some x : Exact) (some y) = some (x * y) := rfl

theorem exact_div (x y : ℚ) (hy : y ≠ 0) :
    Float64.div (some x : Exact) (some y) = some (x / y) := by
  show (if y = 0 then none else some (x / y)) = _
  rw [if_neg hy]

theorem exact_div_zero (x : ℚ) : Float64.div (some x : Exact) (some 0) = none := by
  show (if (0 : ℚ) = 0 then none else some (x / 0)) = _
  rw [if_pos rfl]

theorem exact_ofInt (i : Int) : (Float64.ofInt i : Exact) = some (i : ℚ) := rfl


theorem exact_getD (qs : List ℚ) (i : Nat) :
    (qs.map some : List Exact).getD i (Float64.ofInt 0) = some (qs.getD i 0) := by
  rw [exact_ofInt, Int.cast_zero]
  simp only [List.getD_eq_getElem?_getD, List.getElem?_map]
  cases qs[i]? <;> rfl

theorem exact_eval (qs : List ℚ) (t : SumTree) :
    SumTree.eval (qs.map some : List Exact) t
      = some ((t.elems.map fun i => qs.getD i 0).sum) := by
  induction t with
  | zero => simp [SumTree.eval, SumTree.elems, exact_ofInt]
  | elem i =>
    rw [SumTree.eval, exact_getD]
    simp [SumTree.elems]
  | add l r ihl ihr =>
    simp only [SumTree.eval, SumTree.elems, ihl, ihr, exact_add, List.map_append,
      List.sum_append]

theorem map_getD_range (qs : List ℚ) :
    (List.range qs.length).map (fun i => qs.getD i 0) = qs := by
  apply List.ext_getElem
  · simp
  · intro n h1 h2
    simp [List.getD_eq_getElem?_getD, List.getElem?_eq_getElem h2]

/-- In the exact arithmetic every legal order of summation gives the sum. -/
theorem exact_Sum (so : SumOrder) (hso : so.Legal) (qs : List ℚ) :
    Sum so (qs.map some : List Exact) = some qs.sum := by
  unfold Sum
  rw [exact_eval, List.length_map]
  have hp := (hso qs.length).map (fun i => qs.getD i 0)
  rw [hp.sum_eq, map_getD_range]

theorem exact_Mean (so : SumOrder) (hso : so.Legal) (qs : List ℚ) (hs : qs ≠ []) :
    Mean so (qs.map some : List Exact) = some (arithmeticMean qs) := by
  unfold Mean
  rw [exact_Sum so hso, List.length_map]
  have hn : (qs.length : ℚ) ≠ 0 := by
    have := List.length_pos.mpr hs
    exact_mod_cast Nat.pos_iff_ne_zero.mp this
  show (if (((qs.length : Nat) : Int) : ℚ) = 0 then none
    else some (qs.sum / (((qs.length : Nat) : Int) : ℚ))) = _
  rw [Int.cast_natCast, if_neg hn]
  rfl

theorem exact_dev_loop (μ : ℚ) (qs : List ℚ) (ss c : ℚ) :
    (qs.map some : List Exact).foldl
      (fun (st : Exact × Exact) v =>
        let d := Float64.sub v (some μ)
        (Float64.add st.1 (Float64.mul d d), Float64.add st.2 d))
      (some ss, some c)
    = (some (ss + (qs.map fun x => (x - μ) ^ 2).sum), some (c + (qs.map fun x => x - μ).sum)) := by
  induction qs generalizing ss c with
  | nil => simp
  | cons q qs ih =>
    rw [List.map_cons, List.foldl_cons]
    have e : ((Float64.add (some ss : Exact)
          (Float64.mul (Float64.sub (some q : Exact) (some μ))
            (Float64.sub (some q : Exact) (some μ)))),
        Float64.add (some c : Exact) (Float64.sub (some q : Exact) (some μ)))
        = ((some (ss + (q - μ) ^ 2) : Exact), (some (c + (q - μ)) : Exact)) := by
      show ((some (ss + (q - μ) * (q - μ)) : Exact), (some (c + (q - μ)) : Exact)) = _
      rw [pow_two]
    show List.foldl _ (Float64.add (some ss : Exact)
          (Float64.mul (Float64.sub (some q : Exact) (some μ))
            (Float64.sub (some q : Exact) (some μ))),
        Float64.add (some c : Exact) (Float64.sub (some q : Exact) (some μ))) _ = _
    rw [e, ih]
    simp only [List.map_cons, List.sum_cons, add_assoc]

theorem deviations_sum_zero (qs : List ℚ) (hs : qs ≠ []) :
    (qs.map fun x => x - arithmeticMean qs).sum = 0 := by
  have hn : (qs.length : ℚ) ≠ 0 := by
    have := List.length_pos.mpr hs
    exact_mod_cast Nat.pos_iff_ne_zero.mp this
  have key : ∀ (μ : ℚ) (l : List ℚ), (l.map fun x => x - μ).sum = l.sum - l.length * μ := by
    intro μ l
    induction l with
    | nil => simp
    | cons a l ih => simp only [List.map_cons, List.sum_cons, ih, List.length_cons]; push_cast; ring
  rw [key, arithmeticMean]
  field_simp

/-- In the exact arithmetic `stat.MeanVariance` of at least two numbers is their
arithmetic mean and their sample variance. -/
theorem exact_MeanVariance (so : SumOrder) (hso : so.Legal) (qs : List ℚ)
    (h2 : 2 ≤ qs.length) :
    MeanVariance so (qs.map some : List Exact)
      = (some (arithmeticMean qs), some (sampleVariance qs)) := by
  have hs : qs ≠ [] := by intro e; rw [e] at h2; simp at h2
  have hn : (qs.length : ℚ) ≠ 0 := by
    have := List.length_pos.mpr hs
    exact_mod_cast Nat.pos_iff_ne_zero.mp this
  have hn1 : (qs.length : ℚ) - 1 ≠ 0 := by
    have : (2 : ℚ) ≤ qs.length := by exact_mod_cast h2
    intro e; linarith
  unfold MeanVariance
  simp only [exact_Mean so hso qs hs, List.length_map]
  rw [exact_ofInt 0, Int.cast_zero, exact_dev_loop, deviations_sum_zero qs hs]
  simp only [exact_ofInt, Int.cast_natCast, Int.cast_one, exact_mul, exact_sub]
  rw [exact_div _ _ hn, exact_sub, exact_div _ _ hn1]
  simp [sampleVariance, squaredDeviations]

/-- In the exact arithmetic `stat.MeanVariance` of a single number has a NaN variance,
the quotient of zero by zero. -/
theorem exact_MeanVariance_single (so : SumOrder) (hso : so.Legal) (q : ℚ) :
    MeanVariance so ([some q] : List Exact) = (some q, none) := by
  have h := exact_Mean so hso [q] (by simp)
  simp only [List.map_cons, List.map_nil] at h
  unfold MeanVariance
  simp only [h, List.length_singleton, List.foldl_cons, List.foldl_nil]
  simp only [exact_ofInt, exact_sub, exact_mul, exact_add]
  rw [exact_div _ _ (by norm_num)]
  simp only [exact_sub, arithmeticMean]
  norm_num
  exact exact_div_zero _

/-! ## Bounds -/

theorem length_mul_le_sum (a : ℚ) (l : List ℚ) (h : ∀ x ∈ l, a ≤ x) :
    (l.length : ℚ) * a ≤ l.sum := by
  induction l with
  | nil => simp
  | cons x l ih =>
    have hx := h x (List.mem_cons_self _ _)
    have := ih (fun y hy => h y (List.mem_cons_of_mem _ hy))
    simp only [List.length_cons, List.sum_cons]
    push_cast
    linarith

theorem sum_le_length_mul (b : ℚ) (l : List ℚ) (h : ∀ x ∈ l, x ≤ b) :
    l.sum ≤ (l.length : ℚ) * b := by
  induction l with
  | nil => simp
  | cons x l ih =>
    have hx := h x (List.mem_cons_self _ _)
    have := ih (fun y hy => h y (List.mem_cons_of_mem _ hy))
    simp only [List.length_cons, List.sum_cons]
    push_cast
    linarith

theorem mean_between (a b : ℚ) (qs : List ℚ) (hs : qs ≠ []) (ha : ∀ x ∈ qs, a ≤ x)
    (hb : ∀ x ∈ qs, x ≤ b) : a ≤ arithmeticMean qs ∧ arithmeticMean qs ≤ b := by
  have hn : (0 : ℚ) < qs.length := by
    have := List.length_pos.mpr hs
    exact_mod_cast this
  unfold arithmeticMean
  constructor
  · rw [le_div_iff₀ hn, mul_comm]
    exact length_mul_le_sum a qs ha
  · rw [div_le_iff₀ hn, mul_comm]
    exact sum_le_length_mul b qs hb

theorem squaredDeviations_nonneg (qs : List ℚ) : 0 ≤ squaredDeviations qs := by
  unfold squaredDeviations
  apply List.sum_nonneg
  intro x hx
  obtain ⟨y, _, rfl⟩ := List.mem_map.mp hx
  positivity

theorem sampleVariance_nonneg (qs : List ℚ) (h2 : 2 ≤ qs.length) : 0 ≤ sampleVariance qs := by
  unfold sampleVariance
  have : (2 : ℚ) ≤ qs.length := by exact_mod_cast h2
  apply div_nonneg (squaredDeviations_nonneg qs)
  linarith

/-! ## The square root of `float64` -/

theorem round_tail_shape (neg : Bool) (m : Nat) (e : Int) :
    (if m = 2 ^ 53 then (if e + 1 > 971 then F64.inf neg else F64.fin neg (2 ^ 52) (e + 1))
      else if e > 971 then F64.inf neg else F64.fin neg m e) = F64.inf neg ∨
    ∃ m2 e2, (if m = 2 ^ 53 then
        (if e + 1 > 971 then F64.inf neg else F64.fin neg (2 ^ 52) (e + 1))
      else if e > 971 then F64.inf neg else F64.fin neg m e) = F64.fin neg m2 e2 := by
  split_ifs <;> simp

theorem round_shape (neg : Bool) (M : Nat) (E : Int) :
    F64.round neg M E = .inf neg ∨ ∃ m e, F64.round neg M E = .fin neg m e := by
  unfold F64.round
  by_cases hM : M = 0
  · right; exact ⟨0, -1074, by rw [if_pos hM]⟩
  · rw [if_neg hM]
    exact round_tail_shape neg _ _

theorem signed_false_nonneg (n : Nat) : 0 ≤ signed false n := by
  simp [signed]

theorem round_nonneg (M : Nat) (E : Int) :
    F64.le (.fin false 0 (-1074)) (F64.round false M E) = true := by
  have hz : (F64.fin false 0 (-1074)).rank = 0 := by decide
  rcases round_shape false M E with h | ⟨m2, e2, h⟩
  · rw [h]
    simp only [F64.le, F64.isNaN, hz]
    simpa [F64.rank] using signed_false_nonneg (1 <<< 2100)
  · rw [h]
    simp only [F64.le, F64.isNaN, hz]
    simpa [F64.rank] using signed_false_nonneg (m2 <<< (e2 + 1074).toNat)

/-- The result of `math.Sqrt` is a NaN or is not below zero. -/
theorem f64_sqrt_nonneg (v : F64) :
    (F64.sqrt v).isNaN = true ∨ F64.le (F64.ofInt 0) (F64.sqrt v) = true := by
  have z : F64.ofInt 0 = .fin false 0 (-1074) := by decide
  have hz : (F64.fin false 0 (-1074)).rank = 0 := by decide
  rw [z]
  cases v with
  | nan => left; rfl
  | inf s =>
    cases s
    · right
      simp only [F64.sqrt, F64.le, F64.isNaN, hz]
      simpa [F64.rank] using signed_false_nonneg (1 <<< 2100)
    · left; rfl
  | fin s m e =>
    by_cases hm : m = 0
    · right
      simp only [F64.sqrt, if_pos hm]
      simp [F64.le, F64.isNaN, hz, F64.rank, signed]
    · cases s
      · right
        simp only [F64.sqrt, if_neg hm, Bool.false_eq_true, if_false]
        exact round_nonneg _ _
      · left
        simp [F64.sqrt, if_neg hm, F64.isNaN]

/-! ## Orders of summation -/

theorem sequential_elems (n : Nat) : SumTree.elems (sequential n) = List.range n := by
  induction n with
  | zero => rfl
  | succ n ih => simp [sequential, SumTree.elems, ih, List.range_succ]

theorem sequential_legal : SumOrder.Legal sequential := by
  intro n
  rw [sequential_elems]

theorem laneOf_elems (indices : List Nat) (t : SumTree) :
    SumTree.elems (indices.foldl (fun t i => SumTree.add t (SumTree.elem i)) t)
      = SumTree.elems t ++ indices := by
  induction indices generalizing t with
  | nil => simp
  | cons i indices ih => rw [List.foldl_cons, ih]; simp [SumTree.elems]

theorem lanes_legal : SumOrder.Legal lanes := by
  intro n
  simp only [lanes, laneOf, SumTree.elems, laneOf_elems, List.nil_append]
  exact List.filter_append_perm _ _

/-- The sum of a slice, read in the order of the portable loop, is the fold of the
loop. -/
theorem sequential_eval {F : Type} [Float64 F] (pre suf : List F) :
    SumTree.eval (pre ++ suf) (sequential pre.length)
      = pre.foldl (fun sum val => Float64.add sum val) (Float64.ofInt 0) := by
  induction pre using List.reverseRecOn generalizing suf with
  | nil => rfl
  | append_singleton pre v ih =>
    rw [List.length_append, List.length_singleton, sequential, SumTree.eval,
      List.foldl_append, List.append_assoc, ih]
    simp only [SumTree.eval, List.getD_eq_getElem?_getD, List.foldl_cons, List.foldl_nil,
      List.singleton_append]
    rw [List.getElem?_append_right (Nat.le_refl _)]
    simp

theorem Sum_sequential {F : Type} [Float64 F] (s : List F) :
    Sum sequential s = s.foldl (fun sum val => Float64.add sum val) (Float64.ofInt 0) := by
  have := sequential_eval s ([] : List F)
  rw [List.append_nil] at this
  exact this

/-! ## The statistics of concrete streams in `float64` -/

theorem scenarioA_stats :
    Min scenarioA = some (F64.ofInt 10) ∧ Max scenarioA = some (F64.ofInt 30) ∧
    MeanStdDev sequential F64.sqrt scenarioA = (F64.ofInt 20, F64.ofInt 10) := by
  decide

theorem scenarioA_population :
    populationStdDev sequential F64.sqrt scenarioA = .fin false 4596467122019239 (-49) := by
  decide

theorem tenths_mean :
    tenth = .fin false 7205759403792794 (-56) ∧
    Mean sequential [tenth, tenth, tenth] = .fin false 7205759403792795 (-56) ∧
    Max [tenth, tenth, tenth] = some tenth ∧
    F64.lt tenth (Mean sequential [tenth, tenth, tenth]) = true := by
  decide

theorem single_stddev :
    MeanStdDev sequential F64.sqrt [F64.ofInt 5] = (F64.ofInt 5, F64.nan) := by
  decide

/-- The arithmetic on arguments whose IEEE 754 results are well known: ties to even,
subnormal results, overflow, signed zeros and NaN. -/
theorem f64_known_values :
    -- 1 + 2^-53 = 1 (tie to even)
    F64.add (F64.fin false 4503599627370496 (-52)) (F64.fin false 4503599627370496 (-105))
      = F64.fin false 4503599627370496 (-52) ∧
    -- 1 + 3*2^-53 = 1 + 2^-51 (tie to even)
    F64.add (F64.fin false 4503599627370496 (-52)) (F64.fin false 6755399441055744 (-104))
      = F64.fin false 4503599627370498 (-52) ∧
    -- 1 - 2^-54 = 1 (tie to even)
    F64.sub (F64.fin false 4503599627370496 (-52)) (F64.fin false 4503599627370496 (-106))
      = F64.fin false 4503599627370496 (-52) ∧
    -- 0.1 + 0.2 = 0.30000000000000004
    F64.add (F64.fin false 7205759403792794 (-56)) (F64.fin false 7205759403792794 (-55))
      = F64.fin false 5404319552844596 (-54) ∧
    -- 0.3 - 0.1 = 0.19999999999999998
    F64.sub (F64.fin false 5404319552844595 (-54)) (F64.fin false 7205759403792794 (-56))
      = F64.fin false 7205759403792793 (-55) ∧
    -- overflow
    F64.add (F64.fin false 9007199254740991 (971)) (F64.fin false 9007199254740991 (971))
      = F64.inf false ∧
    -- -0 + 0 = +0
    F64.add (F64.fin true 0 (-1074)) (F64.fin false 0 (-1074)) = F64.fin false 0 (-1074) ∧
    -- 0.1 * 0.1 = 0.010000000000000002
    F64.mul (F64.fin false 7205759403792794 (-56)) (F64.fin false 7205759403792794 (-56))
      = F64.fin false 5764607523034236 (-59) ∧
    -- a subnormal product
    F64.mul (F64.fin false 6755399441055744 (-589)) (F64.fin false 6755399441055744 (-590))
      = F64.fin false 1 (-1074) ∧
    -- -3 * 0 = -0
    F64.mul (F64.fin true 6755399441055744 (-51)) (F64.fin false 0 (-1074))
      = F64.fin true 0 (-1074) ∧
    -- 1/3
    F64.div (F64.fin false 4503599627370496 (-52)) (F64.fin false 6755399441055744 (-51))
      = F64.fin false 6004799503160661 (-54) ∧
    -- 2/3
    F64.div (F64.fin false 4503599627370496 (-51)) (F64.fin false 6755399441055744 (-51))
      = F64.fin false 6004799503160661 (-53) ∧
    -- half of the smallest subnormal is zero
    F64.div (F64.fin false 1 (-1074)) (F64.fin false 4503599627370496 (-51))
      = F64.fin false 0 (-1074) ∧
    -- 3/2 of it rounds to 2 (tie to even)
    F64.div (F64.fin false 3 (-1074)) (F64.fin false 4503599627370496 (-51))
      = F64.fin false 2 (-1074) ∧
    -- 1 / -0 = -Inf
    F64.div (F64.fin false 4503599627370496 (-52)) (F64.fin true 0 (-1074)) = F64.inf true ∧
    -- 0 / 0 = NaN
    F64.div (F64.fin false 0 (-1074)) (F64.fin false 0 (-1074)) = F64.nan ∧
    -- sqrt 2
    F64.sqrt (F64.fin false 4503599627370496 (-51)) = F64.fin false 6369051672525773 (-52) ∧
    -- sqrt 0.1
    F64.sqrt (F64.fin false 7205759403792794 (-56)) = F64.fin false 5696652996790543 (-54) ∧
    -- sqrt of the smallest subnormal
    F64.sqrt (F64.fin false 1 (-1074)) = F64.fin false 4503599627370496 (-589) ∧
    -- sqrt of the largest number
    F64.sqrt (F64.fin false 9007199254740991 (971)) = F64.fin false 9007199254740991 (459) ∧
    -- sqrt(-0) = -0
    F64.sqrt (F64.fin true 0 (-1074)) = F64.fin true 0 (-1074) ∧
    -- sqrt 100 = 10
    F64.sqrt (F64.fin false 7036874417766400 (-46)) = F64.fin false 5629499534213120 (-49) ∧
    -- sqrt(-1) = NaN
    F64.sqrt (F64.fin true 4503599627370496 (-52)) = F64.nan ∧
    -- 2^53 + 1 rounds to 2^53
    F64.ofInt 9007199254740993 = F64.fin false 4503599627370496 (1) ∧
    -- -300
    F64.ofInt (-300) = F64.fin true 5277655813324800 (-44) := by
  decide

/-! ## Sums that do not depend on the order

When the sum of every part of a slice is found in a table that addition respects, the
sum is the same in every legal order. -/

theorem weight_le (w : Nat → Nat) (n : Nat) (l : List Nat) (hnd : l.Nodup)
    (hlt : ∀ i ∈ l, i < n) : (l.map w).sum ≤ ((List.range n).map w).sum := by
  have hsub : l ⊆ List.range n := fun i hi => List.mem_range.mpr (hlt i hi)
  obtain ⟨l2, hp, hs⟩ := List.subperm_of_subset hnd hsub
  have h1 : (l.map w).sum = (l2.map w).sum := ((hp.map w).sum_eq).symm
  rw [h1]
  exact List.Sublist.sum_le_sum (hs.map w) (fun a _ => Nat.zero_le a)

theorem eval_of_table {F : Type} [Float64 F] (x : List F) (n : Nat) (w : Nat → Nat)
    (val : Nat → F) (B : Nat)
    (hx : ∀ i, i < n → x.getD i (Float64.ofInt 0) = val (w i))
    (h0 : (Float64.ofInt 0 : F) = val 0)
    (hadd : ∀ a b, a + b ≤ B → Float64.add (val a) (val b) = val (a + b))
    (hB : ((List.range n).map w).sum ≤ B)
    (t : SumTree) (hnd : (SumTree.elems t).Nodup) (hlt : ∀ i ∈ SumTree.elems t, i < n) :
    SumTree.eval x t = val (((SumTree.elems t).map w).sum) := by
  induction t with
  | zero => simpa [SumTree.eval, SumTree.elems] using h0
  | elem i =>
    have hi : i < n := hlt i (by simp [SumTree.elems])
    rw [SumTree.eval, hx i hi]
    simp [SumTree.elems]
  | add l r ihl ihr =>
    simp only [SumTree.elems] at hnd hlt
    have hl := ihl (List.Nodup.of_append_left hnd)
      (fun i hi => hlt i (List.mem_append_left _ hi))
    have hr := ihr (List.Nodup.of_append_right hnd)
      (fun i hi => hlt i (List.mem_append_right _ hi))
    have hle := weight_le w n _ hnd hlt
    rw [List.map_append, List.sum_append] at hle
    simp only [SumTree.eval, SumTree.elems, hl, hr, List.map_append, List.sum_append]
    exact hadd _ _ (Nat.le_trans hle hB)

/-- The sum of a slice whose partial sums are found in a table is the last entry of the
table, in every legal order. -/
theorem Sum_of_table {F : Type} [Float64 F] (so : SumOrder) (hso : so.Legal) (x : List F)
    (w : Nat → Nat) (val : Nat → F) (B : Nat)
    (hx : ∀ i, i < x.length → x.getD i (Float64.ofInt 0) = val (w i))
    (h0 : (Float64.ofInt 0 : F) = val 0)
    (hadd : ∀ a b, a + b ≤ B → Float64.add (val a) (val b) = val (a + b))
    (hB : ((List.range x.length).map w).sum = B) :
    Sum so x = val B := by
  have hp := hso x.length
  have hnd : (SumTree.elems (so x.length)).Nodup := hp.nodup_iff.mpr (List.nodup_range _)
  have hlt : ∀ i ∈ SumTree.elems (so x.length), i < x.length :=
    fun i hi => List.mem_range.mp (hp.mem_iff.mp hi)
  unfold Sum
  rw [eval_of_table x x.length w val B hx h0 hadd (Nat.le_of_eq hB) _ hnd hlt,
    (hp.map w).sum_eq, hB]

/-- The samples 10, 20, 30 have the sum 60 in every legal order. -/
theorem scenarioA_sum (so : SumOrder) (hso : so.Legal) : Sum so scenarioA = F64.ofInt 60 := by
  have hadd : ∀ a ∈ List.range 7, ∀ b ∈ List.range 7, a + b ≤ 6 →
      F64.add (F64.ofInt (10 * (a : Int))) (F64.ofInt (10 * (b : Int)))
        = F64.ofInt (10 * ((a + b : Nat) : Int)) := by decide
  refine Sum_of_table so hso scenarioA (fun i => i + 1)
    (fun k => F64.ofInt (10 * (k : Int))) 6 ?_ (by decide) ?_ (by decide)
  · intro i hi
    have hi3 : i < 3 := hi
    interval_cases i <;> decide
  · intro a b hab
    exact hadd a (List.mem_range.mpr (by omega)) b (List.mem_range.mpr (by omega)) hab

/-- The statistics of the samples 10, 20, 30 are the same in every legal order of
summation: mean 20 and standard deviation 10. -/
theorem scenarioA_any_order (so : SumOrder) (hso : so.Legal) :
    MeanStdDev so F64.sqrt scenarioA = (F64.ofInt 20, F64.ofInt 10) := by
  have hm : Mean so scenarioA = F64.ofInt 20 := by
    unfold Mean
    rw [scenarioA_sum so hso]
    decide
  simp only [MeanStdDev, MeanVariance, hm]
  decide

/-- Three samples 0.1 have the sum 0.30000000000000004 in every legal order. -/
theorem tenths_sum (so : SumOrder) (hso : so.Legal) :
    Sum so [tenth, tenth, tenth] = .fin false 5404319552844596 (-54) := by
  have hadd : ∀ a ∈ List.range 4, ∀ b ∈ List.range 4, a + b ≤ 3 →
      F64.add (Sum sequential (List.replicate a tenth))
          (Sum sequential (List.replicate b tenth))
        = Sum sequential (List.replicate (a + b) tenth) := by decide
  have h := Sum_of_table so hso [tenth, tenth, tenth] (fun _ => 1)
    (fun k => Sum sequential (List.replicate k tenth)) 3 ?_ (by decide) ?_ (by decide)
  · rw [h]; decide
  · intro i hi
    have hi3 : i < 3 := hi
    interval_cases i <;> decide
  · intro a b hab
    exact hadd a (List.mem_range.mpr (by omega)) b (List.mem_range.mpr (by omega)) hab

/-- The mean of three samples 0.1 is 0.10000000000000002 in every legal order. -/
theorem tenths_any_order (so : SumOrder) (hso : so.Legal) :
    (MeanStdDev so F64.sqrt [tenth, tenth, tenth]).1 = .fin false 7205759403792795 (-56) := by
  have hm : Mean so [tenth, tenth, tenth] = .fin false 7205759403792795 (-56) := by
    unfold Mean
    rw [tenths_sum so hso]
    decide
  simp only [MeanStdDev, MeanVariance, hm]

/-- A single sample 5 has a NaN standard deviation in every legal order. -/
theorem single_any_order (so : SumOrder) (hso : so.Legal) :
    MeanStdDev so F64.sqrt [F64.ofInt 5] = (F64.ofInt 5, F64.nan) := by
  have hadd : ∀ a ∈ List.range 2, ∀ b ∈ List.range 2, a + b ≤ 1 →
      F64.add (F64.ofInt (5 * (a : Int))) (F64.ofInt (5 * (b : Int)))
        = F64.ofInt (5 * ((a + b : Nat) : Int)) := by decide
  have hs : Sum so [F64.ofInt 5] = F64.ofInt 5 := by
    refine Sum_of_table so hso [F64.ofInt 5] (fun _ => 1)
      (fun k => F64.ofInt (5 * (k : Int))) 1 ?_ (by decide) ?_ (by decide)
    · intro i hi
      have hi1 : i < 1 := hi
      interval_cases i; decide
    · intro a b hab
      exact hadd a (List.mem_range.mpr (by omega)) b (List.mem_range.mpr (by omega)) hab
  have hm : Mean so [F64.ofInt 5] = F64.ofInt 5 := by
    unfold Mean
    rw [hs]
    decide
  simp only [MeanStdDev, MeanVariance, hm]
  decide

/-- The order of summation matters in `float64`: in two lanes the samples 58.1, 71.8,
12.5, 54 have the mean 49.099999999999994, in the order of the loop 49.1; and 56.2, 48.9,
42.8, 77.4 have the sum 225.3 in two lanes and 225.29999999999998 in the order of the
loop. -/
theorem sum_order_matters :
    Mean lanes [F64.div (F64.ofInt 581) (F64.ofInt 10), F64.div (F64.ofInt 718) (F64.ofInt 10),
        F64.div (F64.ofInt 125) (F64.ofInt 10), F64.ofInt 54]
      = .fin false 6910210678246604 (-47) ∧
    Mean sequential [F64.div (F64.ofInt 581) (F64.ofInt 10),
        F64.div (F64.ofInt 718) (F64.ofInt 10), F64.div (F64.ofInt 125) (F64.ofInt 10),
        F64.ofInt 54]
      = .fin false 6910210678246605 (-47) ∧
    Sum lanes [F64.div (F64.ofInt 562) (F64.ofInt 10), F64.div (F64.ofInt 489) (F64.ofInt 10),
        F64.div (F64.ofInt 428) (F64.ofInt 10), F64.div (F64.ofInt 774) (F64.ofInt 10)]
      = .fin false 7927039031613850 (-45) ∧
    Sum sequential [F64.div (F64.ofInt 562) (F64.ofInt 10),
        F64.div (F64.ofInt 489) (F64.ofInt 10), F64.div (F64.ofInt 428) (F64.ofInt 10),
        F64.div (F64.ofInt 774) (F64.ofInt 10)]
      = .fin false 7927039031613849 (-45) := by
  decide

/-! ## The aggregation step -/

theorem get_set_same (m : GoMap) (k v : String) : GoMap.get (GoMap.set m k v) k = some v := by
  induction m with
  | nil => simp [GoMap.set, GoMap.get, List.lookup]
  | cons kv m ih =>
    obtain ⟨k2, v2⟩ := kv
    unfold GoMap.set
    by_cases h : k2 = k
    · rw [if_pos h]
      simp [GoMap.get, List.lookup, h]
    · rw [if_neg h]
      have hb : (k == k2) = false := by
        simpa using fun e : k = k2 => h e.symm
      simp only [GoMap.get, List.lookup, hb]
      exact ih

theorem get_set_ne (m : GoMap) (k v k2 : String) (hne : k ≠ k2) :
    GoMap.get (GoMap.set m k v) k2 = GoMap.get m k2 := by
  induction m with
  | nil =>
    have hb : (k2 == k) = false := by simpa using fun e : k2 = k => hne e.symm
    simp [GoMap.set, GoMap.get, List.lookup, hb]
  | cons kv m ih =>
    obtain ⟨k3, v3⟩ := kv
    unfold GoMap.set
    by_cases h : k3 = k
    · rw [if_pos h]
      have hb : (k2 == k3) = false := by
        simpa using fun e : k2 = k3 => hne (h ▸ e).symm
      simp [GoMap.get, List.lookup, hb]
    · rw [if_neg h]
      simp only [GoMap.get, List.lookup]
      cases hb : k2 == k3
      · exact ih
      · rfl

theorem scan_index {F : Type} (isNaN : F → Bool) (better : F → F → Bool) (suf : List F)
    (n : Nat) (st : F × Nat) :
    ((suf.enumFrom n).foldl (scanStep isNaN better) st).2 = st.2 ∨
      (n ≤ ((suf.enumFrom n).foldl (scanStep isNaN better) st).2 ∧
        ((suf.enumFrom n).foldl (scanStep isNaN better) st).2 < n + suf.length) := by
  induction suf generalizing n st with
  | nil => left; rfl
  | cons v suf ih =>
    rw [List.enumFrom_cons, List.foldl_cons]
    have hstep : scanStep isNaN better st (n, v) = st ∨
        scanStep isNaN better st (n, v) = (v, n) := by
      unfold scanStep
      split_ifs <;> simp
    rcases ih (n + 1) (scanStep isNaN better st (n, v)) with h | ⟨h1, h2⟩
    · rcases hstep with e | e
      · left; rw [h, e]
      · right
        rw [h, e]
        simp
    · right
      simp only [List.length_cons]
      omega

theorem scan_index_valid {F : Type} (isNaN : F → Bool) (better : F → F → Bool) (nanv : F)
    (s : List F) (hs : s ≠ []) :
    ∃ m, s[(s.enum.foldl (scanStep isNaN better) (nanv, 0)).2]? = some m := by
  have hpos : 0 < s.length := List.length_pos.mpr hs
  have hlt : (s.enum.foldl (scanStep isNaN better) (nanv, 0)).2 < s.length := by
    rcases scan_index isNaN better s 0 (nanv, 0) with h | ⟨_, h⟩
    · rw [List.enum, h]; exact hpos
    · rw [List.enum]; omega
  exact ⟨_, List.getElem?_eq_getElem hlt⟩

/-- On a non-empty slice `floats.Min` returns a value, whatever the slice holds. -/
theorem Min_some {F : Type} [Float64 F] (s : List F) (hs : s ≠ []) : ∃ mn, Min s = some mn := by
  obtain ⟨m, hm⟩ := scan_index_valid (Float64.isNaN (F := F))
    (fun a b => Float64.lt b a) Float64.nan s hs
  have hl : ¬ s.length = 0 := fun e => hs (List.length_eq_zero.mp e)
  refine ⟨m, ?_⟩
  simp only [Min, MinIdx, if_neg hl]
  exact hm

/-- On a non-empty slice `floats.Max` returns a value, whatever the slice holds. -/
theorem Max_some {F : Type} [Float64 F] (s : List F) (hs : s ≠ []) : ∃ mx, Max s = some mx := by
  obtain ⟨m, hm⟩ := scan_index_valid (Float64.isNaN (F := F))
    (fun a b => Float64.lt a b) Float64.nan s hs
  have hl : ¬ s.length = 0 := fun e => hs (List.length_eq_zero.mp e)
  refine ⟨m, ?_⟩
  simp only [Max, MaxIdx, if_neg hl]
  exact hm

theorem Min_nil {F : Type} [Float64 F] : Min ([] : List F) = none := by
  simp [Min, MinIdx]

/-- The aggregation step on an empty slice panics in `floats.Min`. -/
theorem aggregate_nil {F : Type} [Float64 F] (lib : Lib F) (so : SumOrder)
    (ord : RangeOrder) (now : Int) (h : Heap) (config : Config) :
    aggregate lib so ord now h config [] = .error "floats: zero slice length" := by
  simp only [aggregate, Min_nil]

/-- The aggregation step on a slice with a minimum and a maximum: the new point, its four
fields, its tags, and the maps that were there before. -/
theorem aggregate_ok {F : Type} [Float64 F] (lib : Lib F) (so : SumOrder) (ord : RangeOrder)
    (hord : ord.Legal) (now : Int) (h : Heap) (hwf : h.WF) (c : Config)
    (hT : c.Tags < h.length) (hF : c.Fields < h.length) (points : List F) (mn mx : F)
    (hmin : Min points = some mn) (hmax : Max points = some mx) :
    ∃ h4, aggregate lib so ord now h c points
        = .ok (Point.mk c.Measurement now (h.length + 1) h.length, h4) ∧
      GoMap.get (Heap.load h4 (h.length + 1)) "min" = some (lib.FormatFloat mn) ∧
      GoMap.get (Heap.load h4 (h.length + 1)) "max" = some (lib.FormatFloat mx) ∧
      GoMap.get (Heap.load h4 (h.length + 1)) "mean"
        = some (lib.FormatFloat (MeanStdDev so lib.Sqrt points).1) ∧
      GoMap.get (Heap.load h4 (h.length + 1)) "stddev"
        = some (lib.FormatFloat (MeanStdDev so lib.Sqrt points).2) ∧
      Heap.load h4 h.length = ord (Heap.load h c.Tags) ∧
      ∀ r, r < h.length → Heap.load h4 r = Heap.load h r := by
  obtain ⟨n1, n2, n3, _, n5⟩ := NewPoint_spec ord hord now h hwf c hT hF
  generalize hnp : NewPoint ord now h c = ph at n1 n2 n3 n5
  obtain ⟨p, h0⟩ := ph
  simp only at n1 n2 n3 n5
  subst n1
  have l0 : h.length + 1 < h0.length := by rw [n2]; exact Nat.lt_succ_self _
  have l1 : h.length + 1 < (Heap.store h0 (h.length + 1) "min"
      (lib.FormatFloat mn)).length := by rw [length_store]; exact l0
  have l2 : h.length + 1 < (Heap.store (Heap.store h0 (h.length + 1) "min"
      (lib.FormatFloat mn)) (h.length + 1) "max" (lib.FormatFloat mx)).length := by
    rw [length_store]; exact l1
  have l3 : h.length + 1 < (Heap.store (Heap.store (Heap.store h0 (h.length + 1) "min"
      (lib.FormatFloat mn)) (h.length + 1) "max" (lib.FormatFloat mx))
      (h.length + 1) "mean" (lib.FormatFloat (MeanStdDev so lib.Sqrt points).1)).length := by
    rw [length_store]; exact l2
  have ne1 : h.length + 1 ≠ h.length := Nat.succ_ne_self _
  refine ⟨Heap.store (Heap.store (Heap.store (Heap.store h0 (h.length + 1) "min"
      (lib.FormatFloat mn)) (h.length + 1) "max" (lib.FormatFloat mx))
      (h.length + 1) "mean" (lib.FormatFloat (MeanStdDev so lib.Sqrt points).1))
      (h.length + 1) "stddev" (lib.FormatFloat (MeanStdDev so lib.Sqrt points).2),
    ?_, ?_, ?_, ?_, ?_, ?_, ?_⟩
  · simp only [aggregate, hmin, hmax, hnp]
  · rw [load_store_same _ _ _ _ l3, get_set_ne _ _ _ _ (by decide),
      load_store_same _ _ _ _ l2, get_set_ne _ _ _ _ (by decide),
      load_store_same _ _ _ _ l1, get_set_ne _ _ _ _ (by decide),
      load_store_same _ _ _ _ l0, get_set_same]
  · rw [load_store_same _ _ _ _ l3, get_set_ne _ _ _ _ (by decide),
      load_store_same _ _ _ _ l2, get_set_ne _ _ _ _ (by decide),
      load_store_same _ _ _ _ l1, get_set_same]
  · rw [load_store_same _ _ _ _ l3, get_set_ne _ _ _ _ (by decide),
      load_store_same _ _ _ _ l2, get_set_same]
  · rw [load_store_same _ _ _ _ l3, get_set_same]
  · rw [load_store_ne _ _ _ _ _ ne1, load_store_ne _ _ _ _ _ ne1,
      load_store_ne _ _ _ _ _ ne1, load_store_ne _ _ _ _ _ ne1]
    exact n3
  · intro r hr
    have ne2 : h.length + 1 ≠ r := Nat.ne_of_gt (Nat.lt_succ_of_lt hr)
    rw [load_store_ne _ _ _ _ _ ne2, load_store_ne _ _ _ _ _ ne2,
      load_store_ne _ _ _ _ _ ne2, load_store_ne _ _ _ _ _ ne2]
    exact n5 r hr

/-! ## measure and the loop -/

theorem collect_loop {F : Type} (samples acc : List F) :
    samples.foldl (fun pts kbps => pts ++ [kbps]) acc = acc ++ samples := by
  induction samples generalizing acc with
  | nil => simp
  | cons s samples ih => rw [List.foldl_cons, ih]; simp

theorem measure_init_err {F : Type} [Float64 F] (lib : Lib F) (cy : Cycle F) (h : Heap)
    (c : Config) (e : String) (hi : cy.initErr = some e) :
    (measure lib cy h c).outcome = .returned (some e) ∧ (measure lib cy h c).events = [] ∧
      (measure lib cy h c).heap = h ∧ (measure lib cy h c).late = [] ∧
      (measure lib cy h c).latePanic = none := by
  simp [measure, hi]

theorem measure_urls_err {F : Type} [Float64 F] (lib : Lib F) (cy : Cycle F) (h : Heap)
    (c : Config) (e : String) (hi : cy.initErr = none) (hu : cy.urls = .error e) :
    (measure lib cy h c).outcome = .returned (some e) ∧ (measure lib cy h c).events = [] ∧
      (measure lib cy h c).heap = h ∧ (measure lib cy h c).late = [] ∧
      (measure lib cy h c).latePanic = none := by
  simp [measure, hi, hu]

theorem worker_nil {F : Type} [Float64 F] (lib : Lib F) (cy : Cycle F) (h : Heap)
    (c : Config) (hs : cy.samples = []) :
    (worker lib cy h c).outcome = .panicked "floats: zero slice length" ∧
      (worker lib cy h c).events = [] ∧ (worker lib cy h c).heap = h := by
  simp [worker, hs, aggregate_nil]

theorem worker_ok {F : Type} [Float64 F] (lib : Lib F) (cy : Cycle F) (h : Heap)
    (c : Config) (p : Point) (h1 : Heap)
    (ha : aggregate lib cy.sum cy.ord cy.now h c cy.samples = .ok (p, h1)) :
    (worker lib cy h c).outcome = .returned none ∧
    (worker lib cy h c).events = (write lib.wide cy.net cy.ord h1 c p).2 ++
      (match (write lib.wide cy.net cy.ord h1 c p).1 with
        | some err => [Event.logf "Error writing line: %s" [err]]
        | none => []) ∧
    (worker lib cy h c).heap = h1 := by
  have hc : cy.samples.foldl (fun pts kbps => pts ++ [kbps]) [] = cy.samples := by
    rw [collect_loop]; rfl
  simp only [worker, hc, ha]
  cases hw : (write lib.wide cy.net cy.ord h1 c p).1 <;> simp

/-- With zero samples and `f.Measure` returning nil, `measure` does not return: the
goroutine panics while `wg.Wait()` waits for it. -/
theorem measure_nil {F : Type} [Float64 F] (lib : Lib F) (cy : Cycle F) (h : Heap)
    (c : Config) (hi : cy.initErr = none) (u : List String) (hu : cy.urls = .ok u)
    (hs : cy.samples = []) (hm : cy.measureErr = none) :
    (measure lib cy h c).outcome = .panicked "floats: zero slice length" := by
  obtain ⟨w1, _, _⟩ := worker_nil lib cy h c hs
  simp [measure, hi, hu, hm, w1]

/-- With zero samples the panic of the goroutine ends the process, while `measure` waits
or after it has returned the error of `f.Measure`; nothing is done to the outside world,
and the heap is the one before the call. -/
theorem measure_nil_crash {F : Type} [Float64 F] (lib : Lib F) (cy : Cycle F) (h : Heap)
    (c : Config) (hi : cy.initErr = none) (u : List String) (hu : cy.urls = .ok u)
    (hs : cy.samples = []) :
    (measure lib cy h c).crash = some "floats: zero slice length" ∧
      (measure lib cy h c).events = [] ∧ (measure lib cy h c).late = [] ∧
      (measure lib cy h c).heap = h := by
  obtain ⟨w1, w2, w3⟩ := worker_nil lib cy h c hs
  cases hm : cy.measureErr with
  | none => simp [measure, hi, hu, hm, w1, w2, w3, Run.crash]
  | some e =>
    by_cases he : cy.early > 0
    · simp [measure, hi, hu, hm, w1, w2, w3, Run.crash, he]
    · simp [measure, hi, hu, hm, w1, w2, w3, Run.crash, he]

/-- When `f.Measure` returns nil, `measure` returns nil after the goroutine is done. -/
theorem measure_ok {F : Type} [Float64 F] (lib : Lib F) (cy : Cycle F) (h : Heap)
    (c : Config) (hi : cy.initErr = none) (u : List String) (hu : cy.urls = .ok u)
    (p : Point) (h1 : Heap)
    (ha : aggregate lib cy.sum cy.ord cy.now h c cy.samples = .ok (p, h1))
    (hm : cy.measureErr = none) :
    (measure lib cy h c).outcome = .returned none ∧
    (measure lib cy h c).events = (write lib.wide cy.net cy.ord h1 c p).2 ++
      (match (write lib.wide cy.net cy.ord h1 c p).1 with
        | some err => [Event.logf "Error writing line: %s" [err]]
        | none => []) ∧
    (measure lib cy h c).heap = h1 ∧ (measure lib cy h c).late = [] ∧
    (measure lib cy h c).latePanic = none := by
  obtain ⟨w1, w2, w3⟩ := worker_ok lib cy h c p h1 ha
  simp [measure, hi, hu, hm, w1, w2, w3]

/-- When `f.Measure` returns an error after at least one sample, `measure` returns it;
the events of the goroutine fall before and after the return. -/
theorem measure_err {F : Type} [Float64 F] (lib : Lib F) (cy : Cycle F) (h : Heap)
    (c : Config) (hi : cy.initErr = none) (u : List String) (hu : cy.urls = .ok u)
    (p : Point) (h1 : Heap)
    (ha : aggregate lib cy.sum cy.ord cy.now h c cy.samples = .ok (p, h1))
    (e : String) (hm : cy.measureErr = some e) :
    (measure lib cy h c).outcome = .returned (some e) ∧
    (measure lib cy h c).events ++ (measure lib cy h c).late
      = (write lib.wide cy.net cy.ord h1 c p).2 ++
        (match (write lib.wide cy.net cy.ord h1 c p).1 with
          | some err => [Event.logf "Error writing line: %s" [err]]
          | none => []) ∧
    (measure lib cy h c).heap = h1 ∧ (measure lib cy h c).latePanic = none := by
  obtain ⟨w1, w2, w3⟩ := worker_ok lib cy h c p h1 ha
  simp [measure, hi, hu, hm, w1, w2, w3]

/-- On a non-empty slice the aggregation step does not panic. -/
theorem aggregate_some {F : Type} [Float64 F] (lib : Lib F) (so : SumOrder)
    (ord : RangeOrder) (now : Int) (h : Heap) (c : Config) (points : List F)
    (hs : points ≠ []) :
    ∃ p h1, aggregate lib so ord now h c points = .ok (p, h1) := by
  obtain ⟨mn, hmn⟩ := Min_some points hs
  obtain ⟨mx, hmx⟩ := Max_some points hs
  simp only [aggregate, hmn, hmx]
  exact ⟨_, _, rfl⟩

theorem write_events (wide : Nat → Bool) (net : Network) (ord : RangeOrder) (h : Heap)
    (c : Config) (p : Point) :
    ∀ d, Event.sleep d ∉ (write wide net ord h c p).2 := by
  intro d
  cases hn : net c.DBURL "application/octet-stream" (Point.Line ord h p) with
  | error e => simp [write, hn]
  | ok res =>
    simp only [write, hn]
    split_ifs <;> simp

theorem wrapInt64_id (x : Int) (h0 : -2 ^ 63 ≤ x) (h1 : x < 2 ^ 63) : wrapInt64 x = x := by
  unfold wrapInt64
  rw [Int.emod_eq_of_lt (by omega) (by omega)]
  omega

theorem iteration_crash {F : Type} [Float64 F] (lib : Lib F) (cy : Cycle F) (h : Heap)
    (c : Config) : (iteration lib cy h c).crash = (measure lib cy h c).crash := by
  unfold iteration Run.crash
  generalize measure lib cy h c = r
  rcases r with ⟨o, ev, la, lp, hp⟩
  cases o with
  | panicked m => rfl
  | returned e => cases e <;> rfl

/-! ## Decoding -/

theorem splitOn_clean (c : Char) (a : List Char) (ha : c ∉ a) : splitOn c a = [a] := by
  induction a with
  | nil => rfl
  | cons x a ih =>
    simp only [List.mem_cons, not_or] at ha
    have hx : ¬ x = c := fun e => ha.1 e.symm
    simp only [splitOn, if_neg hx, ih ha.2]

theorem splitOn_append (c : Char) (a b : List Char) (ha : c ∉ a) :
    splitOn c (a ++ c :: b) = a :: splitOn c b := by
  induction a with
  | nil => simp [splitOn]
  | cons x a ih =>
    simp only [List.mem_cons, not_or] at ha
    have hx : ¬ x = c := fun e => ha.1 e.symm
    rw [List.cons_append, splitOn, if_neg hx, ih ha.2]

/-- The characters of one entry. -/
theorem entry_data (k v : String) : (k ++ "=" ++ v).data = k.data ++ '=' :: v.data := by
  simp [String.data_append]

theorem parseEntry_entry (k v : String) (hk : '=' ∉ k.data) (hv : '=' ∉ v.data) :
    parseEntry (k.data ++ '=' :: v.data) = some (k, v) := by
  simp only [parseEntry, splitOn_append '=' _ _ hk, splitOn_clean '=' _ hv]

theorem tagBlock_data (ts : List (String × String)) (k v : String) :
    (tagBlock ((k, v) :: ts)).data = ',' :: (k.data ++ '=' :: v.data) ++ (tagBlock ts).data := by
  simp [tagBlock, String.data_append]

theorem splitOn_tagBlock (a : List Char) (ha : ',' ∉ a) (ts : List (String × String))
    (hts : CleanEntries ts) :
    splitOn ',' (a ++ (tagBlock ts).data)
      = a :: ts.map (fun kv => kv.1.data ++ '=' :: kv.2.data) := by
  induction ts generalizing a with
  | nil => simp [tagBlock, splitOn_clean ',' a ha]
  | cons kv ts ih =>
    obtain ⟨k, v⟩ := kv
    have hkv := hts (k, v) (List.mem_cons_self _ _)
    have hrest : CleanEntries ts := fun x hx => hts x (List.mem_cons_of_mem _ hx)
    have hentry : ',' ∉ k.data ++ '=' :: v.data := by
      simp only [List.mem_append, List.mem_cons, not_or]
      exact ⟨hkv.1.2.1, by decide, hkv.2.2.1⟩
    rw [tagBlock_data, List.cons_append, splitOn_append ',' a _ ha, ih _ hentry hrest]
    rfl

theorem parseEntries_entries (ts : List (String × String)) (hts : CleanEntries ts) :
    parseEntries (ts.map (fun kv => kv.1.data ++ '=' :: kv.2.data)) = some ts := by
  induction ts with
  | nil => rfl
  | cons kv ts ih =>
    obtain ⟨k, v⟩ := kv
    have hkv := hts (k, v) (List.mem_cons_self _ _)
    have hrest : CleanEntries ts := fun x hx => hts x (List.mem_cons_of_mem _ hx)
    simp only [List.map_cons, parseEntries, parseEntry_entry k v hkv.1.2.2 hkv.2.2.2,
      ih hrest]

theorem space_not_mem_tagBlock (ts : List (String × String)) (hts : CleanEntries ts) :
    ' ' ∉ (tagBlock ts).data := by
  induction ts with
  | nil => simp [tagBlock]
  | cons kv ts ih =>
    obtain ⟨k, v⟩ := kv
    have hkv := hts (k, v) (List.mem_cons_self _ _)
    have hrest : CleanEntries ts := fun x hx => hts x (List.mem_cons_of_mem _ hx)
    rw [tagBlock_data]
    simp only [List.cons_append, List.mem_cons, List.mem_append, not_or]
    exact ⟨by decide, ⟨hkv.1.1, by decide, hkv.2.1⟩, ih hrest⟩

theorem fieldBlock_data (k v : String) (fs : List (String × String)) :
    (fieldBlock ((k, v) :: fs)).data = (k.data ++ '=' :: v.data) ++ (tagBlock fs).data := by
  rw [fieldBlock_cons]
  simp [String.data_append]

theorem space_not_mem_fieldBlock (fs : List (String × String)) (hfs : CleanEntries fs) :
    ' ' ∉ (fieldBlock fs).data := by
  cases fs with
  | nil => simp [fieldBlock]
  | cons kv fs =>
    obtain ⟨k, v⟩ := kv
    have hkv := hfs (k, v) (List.mem_cons_self _ _)
    have hrest : CleanEntries fs := fun x hx => hfs x (List.mem_cons_of_mem _ hx)
    rw [fieldBlock_data]
    simp only [List.mem_append, List.mem_cons, not_or]
    exact ⟨⟨hkv.1.1, by decide, hkv.2.1⟩, space_not_mem_tagBlock fs hrest⟩

theorem parse_fieldBlock (fs : List (String × String)) (hfs : CleanEntries fs) :
    (if (fieldBlock fs).data = [] then some []
      else parseEntries (splitOn ',' (fieldBlock fs).data)) = some fs := by
  cases fs with
  | nil => simp [fieldBlock]
  | cons kv fs =>
    obtain ⟨k, v⟩ := kv
    have hkv := hfs (k, v) (List.mem_cons_self _ _)
    have hrest : CleanEntries fs := fun x hx => hfs x (List.mem_cons_of_mem _ hx)
    have hentry : ',' ∉ k.data ++ '=' :: v.data := by
      simp only [List.mem_append, List.mem_cons, not_or]
      exact ⟨hkv.1.2.1, by decide, hkv.2.2.1⟩
    have hne : (fieldBlock ((k, v) :: fs)).data ≠ [] := by
      rw [fieldBlock_data]; simp
    rw [if_neg hne, fieldBlock_data, splitOn_tagBlock _ hentry fs hrest]
    exact parseEntries_entries ((k, v) :: fs) hfs

/-! ## Decimal numbers -/

theorem digitChar_spec (k : Nat) (hk : k < 10) :
    (Nat.digitChar k).isDigit = true ∧ (Nat.digitChar k).toNat - 48 = k ∧
      Nat.digitChar k ≠ ' ' ∧ Nat.digitChar k ≠ '-' := by
  interval_cases k <;> decide

theorem toDigitsCore_fuel (m : Nat) : ∀ (fuel : Nat) (ds : List Char), m < fuel →
    Nat.toDigitsCore 10 fuel m ds = Nat.toDigitsCore 10 (m + 1) m [] ++ ds := by
  induction m using Nat.strong_induction_on with
  | _ m ih =>
    intro fuel ds hf
    obtain ⟨f, rfl⟩ : ∃ f, fuel = f + 1 := ⟨fuel - 1, by omega⟩
    simp only [Nat.toDigitsCore]
    by_cases h0 : m / 10 = 0
    · simp [h0]
    · have hlt : m / 10 < m := by omega
      simp only [h0, if_false]
      rw [ih (m / 10) hlt f _ (by omega), ih (m / 10) hlt m _ hlt]
      simp

theorem toDigits_step (n : Nat) (hn : 10 ≤ n) :
    Nat.toDigits 10 n = Nat.toDigits 10 (n / 10) ++ [Nat.digitChar (n % 10)] := by
  have h0 : ¬ n / 10 = 0 := by omega
  have hlt : n / 10 < n := by omega
  simp only [Nat.toDigits]
  rw [Nat.toDigitsCore]
  simp only [h0, if_false]
  rw [toDigitsCore_fuel (n / 10) n _ hlt]

theorem toDigits_small (n : Nat) (hn : n < 10) : Nat.toDigits 10 n = [Nat.digitChar n] := by
  have h0 : n / 10 = 0 := by omega
  simp only [Nat.toDigits]
  rw [Nat.toDigitsCore]
  simp [h0, Nat.mod_eq_of_lt hn]

theorem parse_toDigits (n : Nat) :
    (Nat.toDigits 10 n).foldl
      (fun acc ch => acc.bind fun n =>
        if ch.isDigit then some (10 * n + (ch.toNat - 48)) else none) (some 0) = some n ∧
    (Nat.toDigits 10 n) ≠ [] ∧
    (∀ ch ∈ Nat.toDigits 10 n, ch ≠ ' ' ∧ ch ≠ '-') := by
  induction n using Nat.strong_induction_on with
  | _ n ih =>
    by_cases hn : n < 10
    · rw [toDigits_small n hn]
      obtain ⟨d1, d2, d3, d4⟩ := digitChar_spec n hn
      refine ⟨?_, by simp, ?_⟩
      · simp [d1, d2]
      · intro ch hch
        rw [List.mem_singleton.mp hch]
        exact ⟨d3, d4⟩
    · have hn2 : 10 ≤ n := Nat.le_of_not_lt hn
      rw [toDigits_step n hn2]
      obtain ⟨i1, _, i3⟩ := ih (n / 10) (by omega)
      obtain ⟨d1, d2, d3, d4⟩ := digitChar_spec (n % 10) (Nat.mod_lt _ (by decide))
      refine ⟨?_, by simp, ?_⟩
      · rw [List.foldl_append, i1]
        simp only [List.foldl_cons, List.foldl_nil, Option.bind, d1, if_true, d2]
        congr 1
        omega
      · intro ch hch
        rcases List.mem_append.mp hch with h | h
        · exact i3 ch h
        · rw [List.mem_singleton.mp h]; exact ⟨d3, d4⟩

theorem parseDecimal_repr (n : Nat) : parseDecimal (Nat.repr n).data = some n := by
  obtain ⟨h1, h2, _⟩ := parse_toDigits n
  simp only [parseDecimal, Nat.repr, List.asString]
  rw [if_neg h2]
  exact h1

theorem toString_int_data (T : Int) :
    parseInt (toString T).data = some T ∧ ' ' ∉ (toString T).data := by
  cases T with
  | ofNat n =>
    obtain ⟨_, h2, h3⟩ := parse_toDigits n
    have e : (toString (Int.ofNat n)).data = Nat.toDigits 10 n := rfl
    rw [e]
    refine ⟨?_, fun hm => (h3 _ hm).1 rfl⟩
    have hp := parseDecimal_repr n
    simp only [Nat.repr, List.asString] at hp
    cases hd : Nat.toDigits 10 n with
    | nil => exact absurd hd h2
    | cons c cs =>
      have hc : c ≠ '-' := (h3 c (by rw [hd]; exact List.mem_cons_self _ _)).2
      rw [hd] at hp
      unfold parseInt
      split
      · rename_i heq
        cases heq
        exact absurd rfl hc
      · rw [hp]; rfl
  | negSucc n =>
    obtain ⟨_, _, h3⟩ := parse_toDigits (n + 1)
    have e : (toString (Int.negSucc n)).data = '-' :: Nat.toDigits 10 (n + 1) := by
      show ("-" ++ Nat.repr (n + 1)).data = _
      simp [String.data_append, Nat.repr, List.asString]
    rw [e]
    refine ⟨?_, ?_⟩
    · have hp := parseDecimal_repr (n + 1)
      simp only [Nat.repr, List.asString] at hp
      simp only [parseInt, hp, Option.map]
      rfl
    · simp only [List.mem_cons, not_or]
      exact ⟨by decide, fun hm => (h3 _ hm).1 rfl⟩

/-- Decoding inverts the line format on clean measurement names, keys and values. -/
theorem decode_lineFormat (M : String) (tags fields : List (String × String)) (T : Int)
    (hM : Clean M) (ht : CleanEntries tags) (hf : CleanEntries fields) :
    decode (lineFormat M tags fields T) = some ⟨M, tags, fields, T⟩ := by
  obtain ⟨p1, p2⟩ := toString_int_data T
  have hdata : (lineFormat M tags fields T).data
      = (M.data ++ (tagBlock tags).data) ++ ' ' :: ((fieldBlock fields).data
          ++ ' ' :: (toString T).data) := by
    simp [lineFormat, String.data_append]
  have hhead : ' ' ∉ M.data ++ (tagBlock tags).data := by
    simp only [List.mem_append, not_or]
    exact ⟨hM.1, space_not_mem_tagBlock tags ht⟩
  have hsplit : splitOn ' ' (lineFormat M tags fields T).data
      = [M.data ++ (tagBlock tags).data, (fieldBlock fields).data, (toString T).data] := by
    rw [hdata, splitOn_append ' ' _ _ hhead,
      splitOn_append ' ' _ _ (space_not_mem_fieldBlock fields hf), splitOn_clean ' ' _ p2]
  simp only [decode, hsplit, splitOn_tagBlock M.data hM.2.1 tags ht,
    parseEntries_entries tags ht, parse_fieldBlock fields hf, p1]

/-! ## The claims -/

/-- C1: for every Point, `Point.Line` is the measurement, then `,key=value` for each tag
exactly once (in the order the runtime visits them), one space, the fields written
`key=value` with a single comma between neighbours, one space, and the timestamp in
decimal; with no tags the measurement is followed directly by the space, with no fields
the field block is empty.  Scenario B gives the expected line, in either tag order. -/
theorem C1_line_format (ord : RangeOrder) (hord : ord.Legal) (h : Heap) (p : Point) :
    (∃ ts fs, ts.Perm (Heap.load h p.Tags) ∧ fs.Perm (Heap.load h p.Fields) ∧
      Point.Line ord h p
        = p.Measurement ++ tagBlock ts ++ " " ++ fieldBlock fs ++ " " ++ toString p.Time) ∧
    (Heap.load h p.Tags = [] → Point.Line ord h p
        = p.Measurement ++ " " ++ fieldBlock (ord (Heap.load h p.Fields)) ++ " "
            ++ toString p.Time) ∧
    (Heap.load h p.Fields = [] → Point.Line ord h p
        = p.Measurement ++ tagBlock (ord (Heap.load h p.Tags)) ++ " " ++ "" ++ " "
            ++ toString p.Time) ∧
    Point.Line id exampleHeap examplePoint
      = "bandwidth,Hostname=h1,AppName=bwmon mean=20 1000" ∧
    Point.Line List.reverse exampleHeap examplePoint
      = "bandwidth,AppName=bwmon,Hostname=h1 mean=20 1000" := by
  refine ⟨⟨_, _, hord _, hord _, Line_eq ord h p⟩, ?_, ?_, by decide, by decide⟩
  · intro h0
    have h1 : ord (Heap.load h p.Tags) = [] := by
      have := hord (Heap.load h p.Tags)
      rw [h0] at this ⊢
      exact List.Perm.eq_nil this
    rw [Line_eq, lineFormat, h1]
    apply String.ext
    simp [tagBlock, String.data_append]
  · intro h0
    have h1 : ord (Heap.load h p.Fields) = [] := by
      have := hord (Heap.load h p.Fields)
      rw [h0] at this ⊢
      exact List.Perm.eq_nil this
    rw [Line_eq, lineFormat, h1]
    rfl

theorem C1_line_format_witness :
    ∃ ts fs, ts.Perm (Heap.load exampleHeap examplePoint.Tags) ∧
      fs.Perm (Heap.load exampleHeap examplePoint.Fields) ∧
      Point.Line List.reverse exampleHeap examplePoint
        = examplePoint.Measurement ++ tagBlock ts ++ " " ++ fieldBlock fs ++ " "
            ++ toString examplePoint.Time :=
  (C1_line_format List.reverse (fun m => List.reverse_perm m) exampleHeap examplePoint).1

/-- C2: when `http.Post` returns a response, `write` returns no error exactly when the
status code `s` satisfies `200 <= s < 300`; 200, 201 and 299 are successes and 199, 300,
404 and 500 are failures. -/
theorem C2_write_success_iff_2xx (wide : Nat → Bool) (net : Network) (ord : RangeOrder)
    (h : Heap) (c : Config) (p : Point) (res : Response)
    (hres : net c.DBURL "application/octet-stream" (Point.Line ord h p) = .ok res) :
    ((write wide net ord h c p).1 = none ↔ 200 ≤ res.StatusCode ∧ res.StatusCode < 300) ∧
    (res.StatusCode ∈ [200, 201, 299] → (write wide net ord h c p).1 = none) ∧
    (res.StatusCode ∈ [199, 300, 404, 500] → (write wide net ord h c p).1 ≠ none) := by
  have key : (write wide net ord h c p).1 = none
      ↔ 200 ≤ res.StatusCode ∧ res.StatusCode < 300 := by
    rw [write_ok wide net ord h c p res hres]
    by_cases hs : res.StatusCode < 200 ∨ res.StatusCode ≥ 300
    · rw [if_pos hs]
      constructor
      · intro hn; cases hn
      · intro hr; omega
    · rw [if_neg hs]
      constructor
      · intro _; omega
      · intro _; rfl
  refine ⟨key, ?_, ?_⟩
  · intro hm
    rw [key]
    simp only [List.mem_cons, List.mem_singleton, List.not_mem_nil, or_false] at hm
    omega
  · intro hm
    rw [Ne, key]
    simp only [List.mem_cons, List.mem_singleton, List.not_mem_nil, or_false] at hm
    omega

theorem C2_write_success_iff_2xx_witness :
    (write (fun _ => true) (replyWith 299 "299" "") id exampleHeap exampleConfig
      examplePoint).1 = none :=
  (C2_write_success_iff_2xx (fun _ => true) (replyWith 299 "299" "") id exampleHeap
    exampleConfig examplePoint { StatusCode := 299, Status := "299", Body := .ok "" }
    rfl).2.1 (by decide)

/-- C9, as stated, fails: a 503 response whose body is `overloaded` followed by a line
feed gives the message `Influxdb returned 503 Service Unavailable: "overloaded\n"`, in
which the line feed is written as the two characters backslash and `n`; the body that
was read is not a substring of it. -/
theorem C9_body_not_verbatim :
    (∀ wide : Nat → Bool,
      (write wide (replyWith 503 "503 Service Unavailable" "overloaded\n") id exampleHeap
        exampleConfig examplePoint).1
        = some "Influxdb returned 503 Service Unavailable: \"overloaded\\n\"") ∧
    ¬ Contains "Influxdb returned 503 Service Unavailable: \"overloaded\\n\""
      "overloaded\n" :=
  ⟨fun _ => rfl, by decide⟩

/-- C9, amended: for every response with a status code outside [200,300) the error of
`write` is `Influxdb returned <status>: <quoted>`, where `<quoted>` is the body that was
read (the placeholder `Unable to read body.` when reading failed) as `strconv.Quote`
writes it.  The message contains the status text and the quoted body, and it contains
the body itself whenever every character of the body is printable and is neither the
double quote nor the backslash. -/
theorem C9_error_message (wide : Nat → Bool) (net : Network) (ord : RangeOrder)
    (h : Heap) (c : Config) (p : Point) (res : Response)
    (hres : net c.DBURL "application/octet-stream" (Point.Line ord h p) = .ok res)
    (hs : res.StatusCode < 200 ∨ res.StatusCode ≥ 300) :
    ∃ msg, (write wide net ord h c p).1 = some msg ∧
      msg = "Influxdb returned " ++ res.Status ++ ": " ++ Quote wide (reportedBody res) ∧
      Contains msg res.Status ∧
      Contains msg (Quote wide (reportedBody res)) ∧
      ((∀ r ∈ (reportedBody res).data, Plain wide r) → Contains msg (reportedBody res)) ∧
      (∀ b, res.Body = .ok b → reportedBody res = b) ∧
      (∀ e, res.Body = .error e → reportedBody res = "Unable to read body.") := by
  refine ⟨_, ?_, rfl, ?_, contains_end _ _, ?_, ?_, ?_⟩
  · rw [write_ok wide net ord h c p res hres, if_pos hs]
  · have := contains_mid "Influxdb returned " res.Status
      (": " ++ Quote wide (reportedBody res))
    have e : "Influxdb returned " ++ res.Status ++ (": " ++ Quote wide (reportedBody res))
        = "Influxdb returned " ++ res.Status ++ ": " ++ Quote wide (reportedBody res) := by
      apply String.ext; simp [String.data_append]
    rw [e] at this
    exact this
  · intro hp
    rw [Quote_plain wide _ hp]
    have := contains_mid ("Influxdb returned " ++ res.Status ++ ": " ++ "\"")
      (reportedBody res) "\""
    have e : "Influxdb returned " ++ res.Status ++ ": " ++ "\"" ++ reportedBody res ++ "\""
        = "Influxdb returned " ++ res.Status ++ ": "
            ++ ("\"" ++ reportedBody res ++ "\"") := by
      apply String.ext; simp [String.data_append]
    rw [e] at this
    exact this
  · intro b hb; simp [reportedBody, hb]
  · intro e he; simp [reportedBody, he]

theorem C9_error_message_witness :
    ∃ msg, (write (fun _ => true) (replyWith 503 "503 Service Unavailable" "overloaded") id
        exampleHeap exampleConfig examplePoint).1 = some msg ∧
      Contains msg "503 Service Unavailable" ∧ Contains msg "overloaded" := by
  obtain ⟨msg, h1, _, h3, _, h5, _, _⟩ :=
    C9_error_message (fun _ => true) (replyWith 503 "503 Service Unavailable" "overloaded")
      id exampleHeap exampleConfig examplePoint
      { StatusCode := 503, Status := "503 Service Unavailable", Body := .ok "overloaded" }
      rfl (by decide)
  exact ⟨msg, h1, h3, h5 (by decide)⟩

/-- C3, as stated, fails: for the samples 10, 20, 30 the aggregation step stores
`stddev=10`, the square root of 200/2, where the population standard deviation is the
square root of 200/3, about 8.16496580927726 (the other three fields are 10, 30, 20).
The stored statistics are the same in whatever order `floats.Sum` adds. -/
theorem C3_stddev_is_not_population :
    storedFields (aggregate exampleLib sequential id 1000 startHeap exampleConfig scenarioA)
      = some [("min", "10"), ("max", "30"), ("mean", "20"), ("stddev", "10")] ∧
    storedFields (aggregate exampleLib lanes id 1000 startHeap exampleConfig scenarioA)
      = some [("min", "10"), ("max", "30"), ("mean", "20"), ("stddev", "10")] ∧
    (MeanStdDev sequential F64.sqrt scenarioA).2 = F64.ofInt 10 ∧
    (∀ so : SumOrder, so.Legal →
      MeanStdDev so F64.sqrt scenarioA = (F64.ofInt 20, F64.ofInt 10)) ∧
    populationStdDev sequential F64.sqrt scenarioA = .fin false 4596467122019239 (-49) ∧
    populationStdDev lanes F64.sqrt scenarioA = .fin false 4596467122019239 (-49) ∧
    F64.lt (F64.div (F64.ofInt 816496580927) (F64.ofInt 100000000000))
      (populationStdDev sequential F64.sqrt scenarioA) = true ∧
    F64.lt (populationStdDev sequential F64.sqrt scenarioA)
      (F64.div (F64.ofInt 816496580928) (F64.ofInt 100000000000)) = true ∧
    (MeanStdDev sequential F64.sqrt scenarioA).2
      ≠ populationStdDev sequential F64.sqrt scenarioA :=
  ⟨by decide, by decide, by decide, scenarioA_any_order, by decide, by decide, by decide,
    by decide, by decide⟩

/-- C3, amended: with the arithmetic of `float64` carried out exactly, the aggregation
step on at least two samples stores, each formatted by `strconv.FormatFloat`, min = the
smallest sample, max = the largest sample, mean = the arithmetic mean, and stddev = the
square root of the sample variance, the sum of the squared deviations from the mean
divided by the length minus one, in whatever order `floats.Sum` adds.  In `float64`
itself, on every non-empty stream without NaN, min and max are the smallest and the
largest sample, and mean and stddev are the two results of `stat.MeanStdDev`, which
depend on the order in which `floats.Sum` adds.  The samples 10, 20, 30 give min=10,
max=30, mean=20 and stddev=10 in every order. -/
theorem C3_statistics (so : SumOrder) (hso : so.Legal) (ord : RangeOrder)
    (hord : ord.Legal) (now : Int) (h : Heap)
    (hwf : h.WF) (c : Config) (hT : c.Tags < h.length) (hF : c.Fields < h.length) :
    (∀ (lib : Lib Exact) (qs : List ℚ), 2 ≤ qs.length →
      ∃ a b h4, aggregate lib so ord now h c (qs.map some)
          = .ok (Point.mk c.Measurement now (h.length + 1) h.length, h4) ∧
        a ∈ qs ∧ (∀ x ∈ qs, a ≤ x) ∧ b ∈ qs ∧ (∀ x ∈ qs, x ≤ b) ∧
        GoMap.get (Heap.load h4 (h.length + 1)) "min" = some (lib.FormatFloat (some a)) ∧
        GoMap.get (Heap.load h4 (h.length + 1)) "max" = some (lib.FormatFloat (some b)) ∧
        GoMap.get (Heap.load h4 (h.length + 1)) "mean"
          = some (lib.FormatFloat (some (arithmeticMean qs))) ∧
        GoMap.get (Heap.load h4 (h.length + 1)) "stddev"
          = some (lib.FormatFloat (lib.Sqrt (some (sampleVariance qs))))) ∧
    (∀ (lib : Lib F64) (S : List F64), S ≠ [] → (∀ x ∈ S, x.isNaN = false) →
      ∃ mn mx h4, aggregate lib so ord now h c S
          = .ok (Point.mk c.Measurement now (h.length + 1) h.length, h4) ∧
        mn ∈ S ∧ (∀ x ∈ S, F64.le mn x = true) ∧ mx ∈ S ∧ (∀ x ∈ S, F64.le x mx = true) ∧
        GoMap.get (Heap.load h4 (h.length + 1)) "min" = some (lib.FormatFloat mn) ∧
        GoMap.get (Heap.load h4 (h.length + 1)) "max" = some (lib.FormatFloat mx) ∧
        GoMap.get (Heap.load h4 (h.length + 1)) "mean"
          = some (lib.FormatFloat (MeanStdDev so lib.Sqrt S).1) ∧
        GoMap.get (Heap.load h4 (h.length + 1)) "stddev"
          = some (lib.FormatFloat (MeanStdDev so lib.Sqrt S).2)) ∧
    MeanStdDev so F64.sqrt scenarioA = (F64.ofInt 20, F64.ofInt 10) ∧
    storedFields (aggregate exampleLib sequential id 1000 startHeap exampleConfig scenarioA)
      = some [("min", "10"), ("max", "30"), ("mean", "20"), ("stddev", "10")] ∧
    storedFields (aggregate exampleLib lanes id 1000 startHeap exampleConfig scenarioA)
      = some [("min", "10"), ("max", "30"), ("mean", "20"), ("stddev", "10")] := by
  refine ⟨?_, ?_, scenarioA_any_order so hso, by decide, by decide⟩
  · intro lib qs h2
    have hs : qs ≠ [] := by intro e; rw [e] at h2; simp at h2
    obtain ⟨a, ha1, ha2, ha3⟩ := exact_Min_spec qs hs
    obtain ⟨b, hb1, hb2, hb3⟩ := exact_Max_spec qs hs
    obtain ⟨h4, g0, g1, g2, g3, g4, _, _⟩ :=
      aggregate_ok lib so ord hord now h hwf c hT hF (qs.map some) (some a) (some b) ha1
        hb1
    have hm : MeanStdDev so lib.Sqrt (qs.map some : List Exact)
        = (some (arithmeticMean qs), lib.Sqrt (some (sampleVariance qs))) := by
      simp only [MeanStdDev, exact_MeanVariance so hso qs h2]
    rw [hm] at g3 g4
    exact ⟨a, b, h4, g0, ha2, ha3, hb2, hb3, g1, g2, g3, g4⟩
  · intro lib S hs hnn
    obtain ⟨mn, ha1, ha2, ha3⟩ := f64_Min_spec S hs hnn
    obtain ⟨mx, hb1, hb2, hb3⟩ := f64_Max_spec S hs hnn
    obtain ⟨h4, g0, g1, g2, g3, g4, _, _⟩ :=
      aggregate_ok lib so ord hord now h hwf c hT hF S mn mx ha1 hb1
    exact ⟨mn, mx, h4, g0, ha2, ha3, hb2, hb3, g1, g2, g3, g4⟩

theorem startHeap_wf : Heap.WF startHeap := by
  intro m hm
  simp only [startHeap, List.mem_cons, List.mem_singleton, List.not_mem_nil, or_false] at hm
  rcases hm with rfl | rfl <;> decide

theorem C3_statistics_witness :
    ∃ a b h4, aggregate (F := Exact) ⟨id, fun _ => "", fun _ => false⟩ lanes id 1000
          startHeap exampleConfig ([10, 20, 30].map some)
          = .ok (Point.mk "bandwidth" 1000 3 2, h4) ∧
        a ∈ [(10 : ℚ), 20, 30] ∧ (∀ x ∈ [(10 : ℚ), 20, 30], a ≤ x) ∧
        b ∈ [(10 : ℚ), 20, 30] ∧ (∀ x ∈ [(10 : ℚ), 20, 30], x ≤ b) := by
  obtain ⟨a, b, h4, g0, g1, g2, g3, g4, _⟩ :=
    (C3_statistics lanes lanes_legal id (fun m => List.Perm.refl m) 1000 startHeap
      startHeap_wf exampleConfig (by decide) (by decide)).1
      ⟨id, fun _ => "", fun _ => false⟩ [10, 20, 30] (by decide)
  exact ⟨a, b, h4, g0, g1, g2, g3, g4⟩

/-- C7, as stated, fails in `float64`: for three samples 0.1 the sum 0.30000000000000004
divided by 3 is 0.10000000000000002, a mean above the maximum 0.1; and for the single
sample 5 the variance is zero divided by zero, so stddev is a NaN, which is not `>= 0`.
Both hold in whatever order `floats.Sum` adds. -/
theorem C7_mean_above_max_and_nan_stddev :
    Min [tenth, tenth, tenth] = some tenth ∧ Max [tenth, tenth, tenth] = some tenth ∧
    tenth = .fin false 7205759403792794 (-56) ∧
    (MeanStdDev sequential F64.sqrt [tenth, tenth, tenth]).1
      = .fin false 7205759403792795 (-56) ∧
    F64.le (MeanStdDev sequential F64.sqrt [tenth, tenth, tenth]).1 tenth = false ∧
    (MeanStdDev sequential F64.sqrt [F64.ofInt 5]).2 = F64.nan ∧
    F64.le (F64.ofInt 0) (MeanStdDev sequential F64.sqrt [F64.ofInt 5]).2 = false ∧
    (∀ so : SumOrder, so.Legal →
      (MeanStdDev so F64.sqrt [tenth, tenth, tenth]).1
        = .fin false 7205759403792795 (-56)) ∧
    (∀ so : SumOrder, so.Legal →
      MeanStdDev so F64.sqrt [F64.ofInt 5] = (F64.ofInt 5, F64.nan)) :=
  ⟨by decide, by decide, by decide, by decide, by decide, by decide, by decide,
    tenths_any_order, single_any_order⟩

/-- C7, amended: in `float64`, for every non-empty stream without NaN, min <= max, every
sample lies between them, and stddev is a NaN or is >= 0, in whatever order `floats.Sum`
adds.  With the arithmetic carried out exactly, min <= mean <= max for every non-empty
stream, the variance of at least two samples is >= 0, and the variance of a single sample
is a NaN, in every legal order of summation. -/
theorem C7_bounds :
    (∀ (so : SumOrder) (S : List F64), S ≠ [] → (∀ x ∈ S, x.isNaN = false) →
      ∃ mn mx, Min S = some mn ∧ Max S = some mx ∧ F64.le mn mx = true ∧
        (∀ x ∈ S, F64.le mn x = true ∧ F64.le x mx = true) ∧
        ((MeanStdDev so F64.sqrt S).2.isNaN = true ∨
          F64.le (F64.ofInt 0) (MeanStdDev so F64.sqrt S).2 = true)) ∧
    (∀ (so : SumOrder), so.Legal → ∀ (Sqrt : Exact → Exact) (qs : List ℚ), qs ≠ [] →
      ∃ a b μ, Min (qs.map some : List Exact) = some (some a) ∧
        Max (qs.map some : List Exact) = some (some b) ∧
        (MeanStdDev so Sqrt (qs.map some)).1 = some μ ∧ a ≤ μ ∧ μ ≤ b) ∧
    (∀ (so : SumOrder), so.Legal → ∀ qs : List ℚ, 2 ≤ qs.length →
      ∃ v, (MeanVariance so (qs.map some : List Exact)).2 = some v ∧ 0 ≤ v) ∧
    (∀ (so : SumOrder), so.Legal →
      ∀ q : ℚ, (MeanVariance so ([some q] : List Exact)).2 = none) := by
  refine ⟨?_, ?_, ?_, ?_⟩
  · intro so S hs hnn
    obtain ⟨mn, ha1, ha2, ha3⟩ := f64_Min_spec S hs hnn
    obtain ⟨mx, hb1, hb2, hb3⟩ := f64_Max_spec S hs hnn
    exact ⟨mn, mx, ha1, hb1, hb3 mn ha2, fun x hx => ⟨ha3 x hx, hb3 x hx⟩,
      f64_sqrt_nonneg _⟩
  · intro so hso Sqrt qs hs
    obtain ⟨a, ha1, _, ha3⟩ := exact_Min_spec qs hs
    obtain ⟨b, hb1, _, hb3⟩ := exact_Max_spec qs hs
    obtain ⟨m1, m2⟩ := mean_between a b qs hs ha3 hb3
    refine ⟨a, b, arithmeticMean qs, ha1, hb1, ?_, m1, m2⟩
    simp only [MeanStdDev, MeanVariance, exact_Mean so hso qs hs]
  · intro so hso qs h2
    exact ⟨sampleVariance qs, by rw [exact_MeanVariance so hso qs h2],
      sampleVariance_nonneg qs h2⟩
  · intro so hso q
    rw [exact_MeanVariance_single so hso]

theorem C7_bounds_witness :
    (∃ mn mx, Min scenarioA = some mn ∧ Max scenarioA = some mx ∧ F64.le mn mx = true) ∧
    (∃ a b μ, Min ([10, 20, 30].map some : List Exact) = some (some a) ∧
      Max ([10, 20, 30].map some : List Exact) = some (some b) ∧
      (MeanStdDev sequential id ([10, 20, 30].map some)).1 = some μ ∧ a ≤ μ ∧ μ ≤ b) := by
  obtain ⟨mn, mx, h1, h2, h3, _⟩ := C7_bounds.1 sequential scenarioA (by decide) (by decide)
  exact ⟨⟨mn, mx, h1, h2, h3⟩,
    C7_bounds.2.1 sequential sequential_legal id [10, 20, 30] (by decide)⟩

/-- C4: on a stream closed with zero samples the cycle does not return an empty-stream
error.  `floats.Min` panics on the empty slice (`floats: zero slice length`), which ends
the process: when `f.Measure` returns nil, `measure` is waiting for the goroutine and
never returns; when `f.Measure` returns an error, `measure` may return that error first,
and the panic of the goroutine ends the process all the same. -/
theorem C4_empty_stream_panics :
    (measure exampleLib (cycleOf [] (replyWith 204 "204 No Content" "")) startHeap
      exampleConfig).outcome = .panicked "floats: zero slice length" ∧
    (mainLoop exampleLib exampleConfig
      [cycleOf [] (replyWith 204 "204 No Content" ""),
        cycleOf scenarioA (replyWith 204 "204 No Content" "")] startHeap).outcome
      = .panicked "floats: zero slice length" ∧
    (∀ (F : Type) [Float64 F] (lib : Lib F) (cy : Cycle F) (h : Heap) (c : Config)
      (u : List String), cy.initErr = none → cy.urls = .ok u → cy.samples = [] →
      cy.measureErr = none →
      (measure lib cy h c).outcome = .panicked "floats: zero slice length") ∧
    (∀ (F : Type) [Float64 F] (lib : Lib F) (cy : Cycle F) (h : Heap) (c : Config)
      (u : List String), cy.initErr = none → cy.urls = .ok u → cy.samples = [] →
      (measure lib cy h c).crash = some "floats: zero slice length" ∧
      (mainLoop lib c [cy] h).outcome = .panicked "floats: zero slice length") ∧
    (measure exampleLib
      { cycleOf [] (replyWith 204 "204 No Content" "") with measureErr := some "timeout" }
      startHeap exampleConfig).outcome = .returned (some "timeout") ∧
    (measure exampleLib
      { cycleOf [] (replyWith 204 "204 No Content" "") with measureErr := some "timeout" }
      startHeap exampleConfig).latePanic = some "floats: zero slice length" := by
  refine ⟨by decide, by decide, ?_, ?_, by decide, by decide⟩
  · intro F _ lib cy h c u hi hu hs hm
    exact measure_nil lib cy h c hi u hu hs hm
  · intro F _ lib cy h c u hi hu hs
    have hc := (measure_nil_crash lib cy h c hi u hu hs).1
    refine ⟨hc, ?_⟩
    have hic : (iteration lib cy h c).crash = some "floats: zero slice length" := by
      rw [iteration_crash]; exact hc
    simp [mainLoop, hic]

theorem store_frame (writes : List (MapRef × String × String)) (h : Heap) (n r : Nat)
    (hw : ∀ w ∈ writes, n ≤ w.1) (hr : r < n) :
    Heap.load (writes.foldl (fun hh w => Heap.store hh w.1 w.2.1 w.2.2) h) r
      = Heap.load h r := by
  induction writes generalizing h with
  | nil => rfl
  | cons w writes ih =>
    rw [List.foldl_cons, ih _ (fun x hx => hw x (List.mem_cons_of_mem _ hx))]
    have : n ≤ w.1 := hw w (List.mem_cons_self _ _)
    exact load_store_ne h w.1 r _ _ (Nat.ne_of_gt (Nat.lt_of_lt_of_le hr this))

theorem measure_heap {F : Type} [Float64 F] (lib : Lib F) (cy : Cycle F) (h : Heap)
    (c : Config) :
    (measure lib cy h c).heap = h ∨
      (measure lib cy h c).heap = (worker lib cy h c).heap := by
  unfold measure
  cases cy.initErr with
  | some e => left; rfl
  | none =>
    cases cy.urls with
    | error e => left; rfl
    | ok u =>
      right
      simp only
      cases cy.measureErr with
      | none => cases (worker lib cy h c).outcome <;> rfl
      | some e =>
        cases (worker lib cy h c).outcome with
        | returned _ => rfl
        | panicked msg => simp only []; split <;> rfl

theorem measure_frame {F : Type} [Float64 F] (lib : Lib F) (cy : Cycle F)
    (hord : cy.ord.Legal) (h : Heap) (hwf : h.WF) (c : Config) (hT : c.Tags < h.length)
    (hF : c.Fields < h.length) (r : Nat) (hr : r < h.length) :
    Heap.load (measure lib cy h c).heap r = Heap.load h r := by
  rcases measure_heap lib cy h c with e | e
  · rw [e]
  · rw [e]
    by_cases hs : cy.samples = []
    · rw [(worker_nil lib cy h c hs).2.2]
    · obtain ⟨mn, hmn⟩ := Min_some cy.samples hs
      obtain ⟨mx, hmx⟩ := Max_some cy.samples hs
      obtain ⟨h4, g0, _, _, _, _, _, g6⟩ :=
        aggregate_ok lib cy.sum cy.ord hord cy.now h hwf c hT hF cy.samples mn mx hmn hmx
      rw [(worker_ok lib cy h c _ h4 g0).2.2]
      exact g6 r hr

/-- C6: `NewPoint(c)` returns a Point with the measurement of `c` whose tags and fields
are new maps holding exactly the pairs of `c.Tags` and of `c.Fields`; whatever keys are
set afterwards in the maps of the Point, and after a whole call of `measure`, the maps of
`c` hold what they held before. -/
theorem C6_newpoint_copies (ord : RangeOrder) (hord : ord.Legal) (now : Int) (h : Heap)
    (hwf : h.WF) (c : Config) (hT : c.Tags < h.length) (hF : c.Fields < h.length) :
    (NewPoint ord now h c).1.Measurement = c.Measurement ∧
    (Heap.load (NewPoint ord now h c).2 (NewPoint ord now h c).1.Tags).Perm
      (Heap.load h c.Tags) ∧
    (Heap.load (NewPoint ord now h c).2 (NewPoint ord now h c).1.Fields).Perm
      (Heap.load h c.Fields) ∧
    Heap.load (NewPoint ord now h c).2 c.Tags = Heap.load h c.Tags ∧
    Heap.load (NewPoint ord now h c).2 c.Fields = Heap.load h c.Fields ∧
    (∀ writes : List (MapRef × String × String),
      (∀ w ∈ writes, w.1 = (NewPoint ord now h c).1.Fields ∨
        w.1 = (NewPoint ord now h c).1.Tags) →
      Heap.load (writes.foldl (fun hh w => Heap.store hh w.1 w.2.1 w.2.2)
          (NewPoint ord now h c).2) c.Tags = Heap.load h c.Tags ∧
      Heap.load (writes.foldl (fun hh w => Heap.store hh w.1 w.2.1 w.2.2)
          (NewPoint ord now h c).2) c.Fields = Heap.load h c.Fields) ∧
    (∀ (F : Type) [Float64 F] (lib : Lib F) (cy : Cycle F), cy.ord.Legal →
      Heap.load (measure lib cy h c).heap c.Tags = Heap.load h c.Tags ∧
      Heap.load (measure lib cy h c).heap c.Fields = Heap.load h c.Fields) := by
  obtain ⟨n1, _, n3, n4, n5⟩ := NewPoint_spec ord hord now h hwf c hT hF
  refine ⟨by rw [n1], ?_, ?_, n5 _ hT, n5 _ hF, ?_, ?_⟩
  · rw [n1]
    show (Heap.load _ h.length).Perm _
    rw [n3]; exact hord _
  · rw [n1]
    show (Heap.load _ (h.length + 1)).Perm _
    rw [n4]; exact hord _
  · intro writes hw
    have hge : ∀ w ∈ writes, h.length ≤ w.1 := by
      intro w hmem
      rcases hw w hmem with e | e
      · rw [e, n1]; exact Nat.le_succ _
      · rw [e, n1]
    exact ⟨by rw [store_frame writes _ h.length _ hge hT, n5 _ hT],
      by rw [store_frame writes _ h.length _ hge hF, n5 _ hF]⟩
  · intro F inst lib cy hlegal
    exact ⟨measure_frame lib cy hlegal h hwf c hT hF _ hT,
      measure_frame lib cy hlegal h hwf c hT hF _ hF⟩

theorem C6_newpoint_copies_witness :
    Heap.load (measure exampleLib (cycleOf scenarioA (replyWith 204 "204 No Content" ""))
      startHeap exampleConfig).heap exampleConfig.Fields
      = Heap.load startHeap exampleConfig.Fields :=
  ((C6_newpoint_copies id (fun m => List.Perm.refl m) 1000 startHeap startHeap_wf
    exampleConfig (by decide) (by decide)).2.2.2.2.2.2 F64 exampleLib
    (cycleOf scenarioA (replyWith 204 "204 No Content" ""))
    (fun m => List.Perm.refl m)).2

/-- C8, as stated, fails: when the database answers 500, `write` returns an error, the
goroutine logs it, `measure` returns nil, and the loop sleeps 300 seconds before the next
measurement instead of retrying at once. -/
theorem C8_delivery_failure_sleeps :
    (measure exampleLib (cycleOf scenarioA (replyWith 500 "500 Internal Server Error" ""))
      startHeap exampleConfig).outcome = .returned none ∧
    (iteration exampleLib (cycleOf scenarioA (replyWith 500 "500 Internal Server Error" ""))
      startHeap exampleConfig).events
      = [Event.post "http://127.0.0.1:8086/write?db=bwmon" "application/octet-stream"
          "bandwidth,Hostname=h1,AppName=bwmon,Version=0.0.1 min=10,max=30,mean=20,stddev=10 1000",
        Event.logf "Error writing line: %s"
          ["Influxdb returned 500 Internal Server Error: \"\""],
        Event.sleep 300000000000] := by
  decide

/-- C8, amended: a failure of `f.Init()` or `f.GetUrls()` makes `measure` return that
error before anything else happens, and an error returned by `f.Measure` after at least
one sample makes `measure` return it; the loop then logs the error and does not sleep.
A delivery failure in `write` is logged by the goroutine (`Error writing line: ...`) and
is not returned: whenever `f.Measure` returns nil after at least one sample, `measure`
returns nil and the loop sleeps `time.Duration(config.Interval) * time.Second`, which is
`config.Interval` seconds as long as that many nanoseconds fit an `int64`. -/
theorem C8_cycle_outcomes {F : Type} [Float64 F] (lib : Lib F) (cy : Cycle F) (h : Heap)
    (c : Config) :
    (∀ e, cy.initErr = some e →
      (measure lib cy h c).outcome = .returned (some e) ∧
      (iteration lib cy h c).events = [Event.logf e []]) ∧
    (∀ e, cy.initErr = none → cy.urls = .error e →
      (measure lib cy h c).outcome = .returned (some e) ∧
      (iteration lib cy h c).events = [Event.logf e []]) ∧
    (∀ u e, cy.initErr = none → cy.urls = .ok u → cy.samples ≠ [] →
      cy.measureErr = some e →
      (measure lib cy h c).outcome = .returned (some e) ∧
      (iteration lib cy h c).events = (measure lib cy h c).events ++ [Event.logf e []] ∧
      (∀ d, Event.sleep d ∉ (iteration lib cy h c).events) ∧
      (∀ d, Event.sleep d ∉ (iteration lib cy h c).late) ∧
      (iteration lib cy h c).latePanic = none) ∧
    (∀ u, cy.initErr = none → cy.urls = .ok u → cy.samples ≠ [] → cy.measureErr = none →
      (measure lib cy h c).outcome = .returned none ∧
      ∃ p h1, aggregate lib cy.sum cy.ord cy.now h c cy.samples = .ok (p, h1) ∧
        (iteration lib cy h c).events = (write lib.wide cy.net cy.ord h1 c p).2 ++
          (match (write lib.wide cy.net cy.ord h1 c p).1 with
            | some err => [Event.logf "Error writing line: %s" [err]]
            | none => []) ++
          [Event.sleep (wrapInt64 (c.Interval * 1000000000))]) ∧
    (0 ≤ c.Interval → c.Interval * 1000000000 < 2 ^ 63 →
      wrapInt64 (c.Interval * 1000000000) = c.Interval * 1000000000) := by
  refine ⟨?_, ?_, ?_, ?_, ?_⟩
  · intro e hi
    obtain ⟨m1, m2, _⟩ := measure_init_err lib cy h c e hi
    exact ⟨m1, by simp [iteration, m1, m2]⟩
  · intro e hi hu
    obtain ⟨m1, m2, _⟩ := measure_urls_err lib cy h c e hi hu
    exact ⟨m1, by simp [iteration, m1, m2]⟩
  · intro u e hi hu hs hm
    obtain ⟨p, h1, ha⟩ := aggregate_some lib cy.sum cy.ord cy.now h c cy.samples hs
    obtain ⟨m1, m2, _, m4⟩ := measure_err lib cy h c hi u hu p h1 ha e hm
    have hev : (iteration lib cy h c).events
        = (measure lib cy h c).events ++ [Event.logf e []] := by
      simp [iteration, m1]
    have hlate : (iteration lib cy h c).late = (measure lib cy h c).late := by
      simp [iteration, m1]
    have hlp : (iteration lib cy h c).latePanic = (measure lib cy h c).latePanic := by
      simp [iteration, m1]
    have hall : ∀ d,
        Event.sleep d ∉ (measure lib cy h c).events ++ (measure lib cy h c).late := by
      intro d hd
      rw [m2] at hd
      rcases List.mem_append.mp hd with hd | hd
      · exact write_events _ _ _ _ _ _ d hd
      · cases hw : (write lib.wide cy.net cy.ord h1 c p).1 <;> rw [hw] at hd <;> simp at hd
    refine ⟨m1, hev, ?_, ?_, by rw [hlp, m4]⟩
    · intro d hd
      rw [hev] at hd
      rcases List.mem_append.mp hd with hd | hd
      · exact hall d (List.mem_append_left _ hd)
      · simp at hd
    · intro d hd
      rw [hlate] at hd
      exact hall d (List.mem_append_right _ hd)
  · intro u hi hu hs hm
    obtain ⟨p, h1, ha⟩ := aggregate_some lib cy.sum cy.ord cy.now h c cy.samples hs
    obtain ⟨m1, m2, _⟩ := measure_ok lib cy h c hi u hu p h1 ha hm
    refine ⟨m1, p, h1, ha, ?_⟩
    rw [← m2]
    simp [iteration, m1]
  · intro h0 h1
    exact wrapInt64_id _ (by omega) h1

theorem C8_cycle_outcomes_witness :
    (measure exampleLib
      { cycleOf scenarioA (replyWith 204 "204 No Content" "") with
        measureErr := some "timeout" } startHeap exampleConfig).outcome
      = .returned (some "timeout") :=
  ((C8_cycle_outcomes exampleLib
    { cycleOf scenarioA (replyWith 204 "204 No Content" "") with
      measureErr := some "timeout" } startHeap exampleConfig).2.2.1
    ["https://example.net/speedtest"] "timeout" rfl rfl (by decide) rfl).1

/-- C10: when the source closes the stream after zero samples, the call of `measure`
does nothing to the outside world, neither before it ends nor in the goroutine it may
have left running: `write` is not reached, so no line is posted, and the pass of the loop
around it posts nothing either. -/
theorem C10_no_delivery_on_empty_stream {F : Type} [Float64 F] (lib : Lib F)
    (cy : Cycle F) (h : Heap) (c : Config) (hs : cy.samples = []) :
    (measure lib cy h c).events = [] ∧
    (∀ url ct body, Event.post url ct body ∉ (measure lib cy h c).events) ∧
    (∀ url ct body, Event.post url ct body ∉ (iteration lib cy h c).events) ∧
    (∀ p h1, aggregate lib cy.sum cy.ord cy.now h c cy.samples ≠ .ok (p, h1)) ∧
    (measure lib cy h c).late = [] ∧ (iteration lib cy h c).late = [] := by
  have hev : (measure lib cy h c).events = [] ∧ (measure lib cy h c).late = [] := by
    cases hi : cy.initErr with
    | some e =>
      exact ⟨(measure_init_err lib cy h c e hi).2.1,
        (measure_init_err lib cy h c e hi).2.2.2.1⟩
    | none =>
      cases hu : cy.urls with
      | error e =>
        exact ⟨(measure_urls_err lib cy h c e hi hu).2.1,
          (measure_urls_err lib cy h c e hi hu).2.2.2.1⟩
      | ok u =>
        exact ⟨(measure_nil_crash lib cy h c hi u hu hs).2.1,
          (measure_nil_crash lib cy h c hi u hu hs).2.2.1⟩
  refine ⟨hev.1, ?_, ?_, ?_, hev.2, ?_⟩
  · intro url ct body
    rw [hev.1]; simp
  · intro url ct body
    unfold iteration
    simp only [hev.1]
    split <;> simp
  · intro p h1
    rw [hs, aggregate_nil]
    intro e; cases e
  · unfold iteration
    simp only [hev.2]
    split <;> rfl

theorem C10_no_delivery_on_empty_stream_witness :
    (measure exampleLib (cycleOf [] (replyWith 204 "204 No Content" "")) startHeap
      exampleConfig).events = [] :=
  (C10_no_delivery_on_empty_stream exampleLib (cycleOf [] (replyWith 204 "204 No Content" ""))
    startHeap exampleConfig rfl).1

theorem cleanEntries_perm (l1 l2 : List (String × String)) (hp : l1.Perm l2)
    (h : CleanEntries l2) : CleanEntries l1 :=
  fun kv hkv => h kv (hp.mem_iff.mp hkv)

theorem decode_Line (ord : RangeOrder) (hord : ord.Legal) (h : Heap) (p : Point)
    (hM : Clean p.Measurement) (ht : CleanEntries (Heap.load h p.Tags))
    (hf : CleanEntries (Heap.load h p.Fields)) :
    decode (Point.Line ord h p) = some ⟨p.Measurement, ord (Heap.load h p.Tags),
      ord (Heap.load h p.Fields), p.Time⟩ := by
  rw [Line_eq]
  exact decode_lineFormat _ _ _ _ hM (cleanEntries_perm _ _ (hord _) ht)
    (cleanEntries_perm _ _ (hord _) hf)

/-- C5, as stated, fails: the measurement name and the keys are written unescaped as
well.  The point with measurement `a,b=c` and no tags and the point with measurement `a`
and the tag `b=c` have clean values and the same line, `a,b=c  0`, which decodes to the
second; and a measurement name with a space gives a line that does not decode. -/
theorem C5_reserved_in_measurement :
    CleanValues (Heap.load [[], []] 0) ∧ CleanValues (Heap.load [[], []] 1) ∧
    CleanValues (Heap.load [[("b", "c")], []] 0) ∧
    CleanValues (Heap.load [[("b", "c")], []] 1) ∧
    Point.Line id [[], []] (Point.mk "a,b=c" 0 1 0) = "a,b=c  0" ∧
    Point.Line id [[("b", "c")], []] (Point.mk "a" 0 1 0) = "a,b=c  0" ∧
    decode (Point.Line id [[], []] (Point.mk "a,b=c" 0 1 0))
      = some ⟨"a", [("b", "c")], [], 0⟩ ∧
    decode (Point.Line id startHeap (Point.mk "band width" 1000 1 0)) = none := by
  decide

/-- C5, amended: for every Point whose measurement name, tag keys, tag values, field keys
and field values contain no comma, equals sign or space, decoding `Point.Line` by
splitting on the delimiters recovers the measurement name, the tags and the fields (in
the order in which they were written) and the timestamp; hence two such Points with the
same line have the same measurement name, timestamp, tags and fields. -/
theorem C5_roundtrip (ord : RangeOrder) (hord : ord.Legal) (h : Heap) (p : Point)
    (hM : Clean p.Measurement) (ht : CleanEntries (Heap.load h p.Tags))
    (hf : CleanEntries (Heap.load h p.Fields)) :
    decode (Point.Line ord h p) = some ⟨p.Measurement, ord (Heap.load h p.Tags),
      ord (Heap.load h p.Fields), p.Time⟩ ∧
    (ord (Heap.load h p.Tags)).Perm (Heap.load h p.Tags) ∧
    (ord (Heap.load h p.Fields)).Perm (Heap.load h p.Fields) ∧
    (∀ (ord2 : RangeOrder) (h2 : Heap) (p2 : Point), ord2.Legal → Clean p2.Measurement →
      CleanEntries (Heap.load h2 p2.Tags) → CleanEntries (Heap.load h2 p2.Fields) →
      Point.Line ord2 h2 p2 = Point.Line ord h p →
      p2.Measurement = p.Measurement ∧ p2.Time = p.Time ∧
      (Heap.load h2 p2.Tags).Perm (Heap.load h p.Tags) ∧
      (Heap.load h2 p2.Fields).Perm (Heap.load h p.Fields)) := by
  have d1 := decode_Line ord hord h p hM ht hf
  refine ⟨d1, hord _, hord _, ?_⟩
  intro ord2 h2 p2 hord2 hM2 ht2 hf2 hline
  have d2 := decode_Line ord2 hord2 h2 p2 hM2 ht2 hf2
  rw [hline, d1] at d2
  have e := Option.some.inj d2
  have e1 : p.Measurement = p2.Measurement := congrArg Decoded.Measurement e
  have e2 : ord (Heap.load h p.Tags) = ord2 (Heap.load h2 p2.Tags) :=
    congrArg Decoded.Tags e
  have e3 : ord (Heap.load h p.Fields) = ord2 (Heap.load h2 p2.Fields) :=
    congrArg Decoded.Fields e
  have e4 : p.Time = p2.Time := congrArg Decoded.Time e
  refine ⟨e1.symm, e4.symm, ?_, ?_⟩
  · exact ((hord2 _).symm.trans (e2 ▸ List.Perm.refl _)).trans (hord _)
  · exact ((hord2 _).symm.trans (e3 ▸ List.Perm.refl _)).trans (hord _)

theorem C5_roundtrip_witness :
    decode (Point.Line List.reverse exampleHeap examplePoint)
      = some ⟨"bandwidth", [("AppName", "bwmon"), ("Hostname", "h1")], [("mean", "20")],
          1000⟩ :=
  (C5_roundtrip List.reverse (fun m => List.reverse_perm m) exampleHeap examplePoint
    (by decide) (by decide) (by decide)).1

end Bwmon
